import Mathlib

/-!
# Syllable engine of the poetry notebook (`src/app.js`, module `Syllables`)

A shallow embedding of the Spanish syllable counter and the verse classifier.

## Strings

A JavaScript string is a sequence of UTF-16 code units, and `word[i]`,
`word.length` and the regular expressions used by the module (none carries the
`u` flag) all work on code units.  A string is therefore modelled as a list of
natural numbers, one per code unit.  `str` turns a Lean string literal into
that representation.

## Platform functions

`String.prototype.toLowerCase`, `toUpperCase`, `normalize('NFC')`, `trim` and
`split` belong to the JavaScript runtime.  `trim` and `split(/\s+/)` are
modelled in full.  The case mappings are modelled on Basic Latin, the Latin-1
Supplement and U+0130; NFC is modelled on Spanish text (the canonical
compositions that yield a Spanish letter).  Code units outside these ranges are
kept unchanged by the model, so the model of `countWord` is the code on the
words written with Spanish letters, accented letters precomposed or decomposed
(`isDecomposedSpanish`); `countText` only ever hands such words to `countWord`.

## Numbers

`verseName` receives a JavaScript Number.  An integer `n` stands for the Number
of that value, which exists when `isNumber n` holds: every integer below
`2 ^ 53` in absolute value, and beyond that the integers with a 53-bit
significand.  `numberToString` models `Number::toString` of ECMAScript on these
integers: it is what the template literal and the property access `names[n]`
apply to `n`.
-/

namespace Syllables

/-- A JavaScript string: its sequence of UTF-16 code units, each a natural
number. -/
abbrev JSString := List Nat

/-- UTF-16 encoding of one Unicode scalar value. -/
def utf16 (c : Char) : JSString :=
  if c.toNat < 0x10000 then [c.toNat]
  else [0xD800 + (c.toNat - 0x10000) / 0x400, 0xDC00 + (c.toNat - 0x10000) % 0x400]

/-- The JavaScript string written by a literal. -/
def str (s : String) : JSString := s.toList.flatMap utf16

/-! ### Runtime: case mapping -/

/-- Lower-case mapping of one code unit (`toLowerCase`): `A`-`Z` and the
Latin-1 capitals U+00C0-U+00DE (U+00D7, the multiplication sign, excepted) move
up by 32; U+0130 (capital I with dot above) becomes `i` followed by U+0307, the
one lower-case mapping of Unicode that yields two code units. -/
def toLowerUnit (u : Nat) : JSString :=
  if 0x41 ≤ u ∧ u ≤ 0x5A then [u + 32]
  else if 0xC0 ≤ u ∧ u ≤ 0xDE ∧ u ≠ 0xD7 then [u + 32]
  else if u = 0x130 then [0x69, 0x307]
  else [u]

/-- Model of `String.prototype.toLowerCase`. -/
def toLowerCase (s : JSString) : JSString := s.flatMap toLowerUnit

/-- Upper-case mapping of one code unit (`toUpperCase`): `a`-`z` and the
Latin-1 small letters U+00E0-U+00FE (U+00F7, the division sign, excepted) move
down by 32; U+00DF (sharp s) becomes `SS`, U+00FF becomes U+0178 and U+00B5
(micro sign) becomes U+039C. -/
def toUpperUnit (u : Nat) : JSString :=
  if 0x61 ≤ u ∧ u ≤ 0x7A then [u - 32]
  else if 0xE0 ≤ u ∧ u ≤ 0xFE ∧ u ≠ 0xF7 then [u - 32]
  else if u = 0xDF then [0x53, 0x53]
  else if u = 0xFF then [0x178]
  else if u = 0xB5 then [0x39C]
  else [u]

/-- Model of `String.prototype.toUpperCase`. -/
def toUpperCase (s : JSString) : JSString := s.flatMap toUpperUnit

/-! ### Runtime: NFC -/

/-- Canonical compositions that yield a Spanish letter: a vowel followed by
U+0301 (combining acute), `u` followed by U+0308 (combining diaeresis), `n`
followed by U+0303 (combining tilde), in both cases. -/
def compositions : List ((Nat × Nat) × Nat) :=
  [ ((0x61, 0x301), 0xE1), ((0x65, 0x301), 0xE9), ((0x69, 0x301), 0xED),
    ((0x6F, 0x301), 0xF3), ((0x75, 0x301), 0xFA), ((0x75, 0x308), 0xFC),
    ((0x6E, 0x303), 0xF1),
    ((0x41, 0x301), 0xC1), ((0x45, 0x301), 0xC9), ((0x49, 0x301), 0xCD),
    ((0x4F, 0x301), 0xD3), ((0x55, 0x301), 0xDA), ((0x55, 0x308), 0xDC),
    ((0x4E, 0x303), 0xD1) ]

/-- The precomposed letter for a base followed by a combining mark, if the
pair is one of `compositions`. -/
def compose (base mark : Nat) : Option Nat := compositions.lookup (base, mark)

/-- Model of `String.prototype.normalize('NFC')` on Spanish text: every base
letter directly followed by a combining mark it composes with is replaced by
the precomposed letter. -/
def nfc : JSString → JSString
  | [] => []
  | [u] => [u]
  | u :: v :: rest =>
    match compose u v with
    | some w => w :: nfc rest
    | none => u :: nfc (v :: rest)

/-! ### Runtime: white space, `trim`, `split` -/

/-- White space of ECMAScript (`WhiteSpace` and `LineTerminator`): what `\s`
matches and what `trim` strips. -/
def isSpace (u : Nat) : Bool :=
  u = 0x09 || u = 0x0A || u = 0x0B || u = 0x0C || u = 0x0D || u = 0x20 || u = 0xA0 ||
  u = 0x1680 || (0x2000 ≤ u && u ≤ 0x200A) || u = 0x2028 || u = 0x2029 ||
  u = 0x202F || u = 0x205F || u = 0x3000 || u = 0xFEFF

/-- Model of `String.prototype.trim`: white space is stripped at both ends. -/
def trim (s : JSString) : JSString :=
  ((s.dropWhile isSpace).reverse.dropWhile isSpace).reverse

/-- Model of `s.split(/\s+/)`: the pieces of `s` between the maximal runs of
white space.  A run at the very start or the very end leaves an empty piece
there, and the empty string gives one empty piece. -/
def splitWs : JSString → List JSString
  | [] => [[]]
  | u :: rest =>
    if isSpace u then
      match rest with
      | [] => [[], []]
      | v :: _ => if isSpace v then splitWs rest else [] :: splitWs rest
    else
      match splitWs rest with
      | [] => [[u]]
      | tok :: toks => (u :: tok) :: toks

/-! ### Module `Syllables` -/

/-- Source: `const VOWELS = 'aeiouáéíóúüAEIOUÁÉÍÓÚÜ'`. -/
def VOWELS : JSString := str "aeiouáéíóúüAEIOUÁÉÍÓÚÜ"

/-- Source: `const STRONG = 'aeoáéóAEOÁÉÓ'`. -/
def STRONG : JSString := str "aeoáéóAEOÁÉÓ"

/-- Source: `const WEAK = 'iuüíúIUÜÍÚ'`. -/
def WEAK : JSString := str "iuüíúIUÜÍÚ"

/-- Source: `const DIPHTHONGS = new Set([...])`. -/
def DIPHTHONGS : List JSString :=
  [ "ai", "au", "ei", "eu", "oi", "ou", "ia", "ie", "io", "iu", "ua", "ue", "ui", "uo",
    "ái", "áu", "éi", "éu", "ói", "íu", "úi", "iá", "ié", "ió", "iú", "uá", "ué", "uó",
    "üe", "üi" ].map str

/-- Source: `isVowel = c => VOWELS.includes(c)`, for a one-unit string `c`. -/
def isVowel (c : Nat) : Bool := decide (c ∈ VOWELS)

/-- Source: `isStrong = c => STRONG.includes(c)`, for a one-unit string `c`. -/
def isStrong (c : Nat) : Bool := decide (c ∈ STRONG)

/-- State of the `while` loop of `countWord`: the index `i` and `count`. -/
structure LoopState where
  i : Nat
  count : Nat
deriving DecidableEq, Repr

/-- One run of the body of the `while` loop of `countWord`, entered with
`i < word.length`. -/
def loopBody (word : JSString) (s : LoopState) (h : s.i < word.length) : LoopState :=
  if isVowel (word.get ⟨s.i, h⟩) then
    -- count++
    if h1 : s.i + 1 < word.length then
      if isVowel (word.get ⟨s.i + 1, h1⟩) then
        -- pair = word[i] + word[i+1]
        if [word.get ⟨s.i, h⟩, word.get ⟨s.i + 1, h1⟩] ∈ DIPHTHONGS then
          ⟨s.i + 2, s.count + 1⟩
        else ⟨s.i + 1, s.count + 1⟩
      else ⟨s.i + 1, s.count + 1⟩
    else ⟨s.i + 1, s.count + 1⟩
  else ⟨s.i + 1, s.count⟩

/-- The `while (i < word.length)` loop of `countWord`, run for at most `fuel`
iterations. -/
def whileLoop (word : JSString) : Nat → LoopState → LoopState
  | 0, s => s
  | fuel + 1, s =>
    if h : s.i < word.length then whileLoop word fuel (loopBody word s h) else s

/-- Source: `countWord(word)`.  The loop is given `word.length` iterations,
which `whileLoop_exit` and `whileLoop_more_fuel` show to be enough. -/
def countWord (word : JSString) : Nat :=
  if word = [] then 0
  else
    let word := nfc (toLowerCase word)
    max 1 (whileLoop word word.length ⟨0, 0⟩).count

/-- The character class `[a-záéíóúüñA-ZÁÉÍÓÚÜÑ]` of `countText`. -/
def isSpanishLetter (u : Nat) : Bool :=
  (0x61 ≤ u && u ≤ 0x7A) || decide (u ∈ str "áéíóúüñ") ||
  (0x41 ≤ u && u ≤ 0x5A) || decide (u ∈ str "ÁÉÍÓÚÜÑ")

/-- Source: `w.replace(/[^a-záéíóúüñA-ZÁÉÍÓÚÜÑ]/g, '')`. -/
def clean (w : JSString) : JSString := w.filter isSpanishLetter

/-- Source: `countText(text)`. -/
def countText (text : JSString) : Nat :=
  if text = [] ∨ trim text = [] then 0
  else
    (splitWs (trim text)).foldl
      (fun sum w => sum + (if clean w ≠ [] then countWord (clean w) else 0)) 0

/-! ### Runtime: Numbers and `Number::toString` -/

/-- The power of two `u` with `v / u < 2 ^ 53`, found by doubling from `u`: for
`v ≥ 2 ^ 53` and `u = 1` it is the distance between neighbouring Numbers at
`v`.  The fuel `v` is never used up, since `v < 2 ^ v`. -/
def spacing : Nat → Nat → Nat → Nat
  | 0, _, u => u
  | fuel + 1, v, u => if v / u < 2 ^ 53 then u else spacing fuel v (2 * u)

/-- The Number nearest to the natural number `v` (IEEE 754 binary64: a 53-bit
significand, round to nearest, ties to the even significand).  A result of
`2 ^ 1024` or more stands for `Infinity`. -/
def roundToNumber (v : Nat) : Nat :=
  if v < 2 ^ 53 then v
  else
    let unit := spacing v v 1
    let q := v / unit
    let r := v % unit
    if 2 * r < unit then q * unit
    else if unit < 2 * r then (q + 1) * unit
    else if q % 2 = 0 then q * unit else (q + 1) * unit

/-- The integer `n` is the value of a Number: it rounds to itself and is
finite, that is below `2 ^ 1024 = 16 ^ 256` in absolute value. -/
def isNumber (n : Int) : Prop := roundToNumber n.natAbs = n.natAbs ∧ n.natAbs < 16 ^ 256

instance isNumberDecidable (n : Int) : Decidable (isNumber n) := by
  unfold isNumber
  infer_instance

/-- The pairs `(s, e)` of `Number::toString` with `k` digits for the Number
`x`: `10 ^ (k - 1) ≤ s < 10 ^ k` and `s * 10 ^ e` rounds to `x`.  With `n = k + e`
of the standard, `n` is the number of digits of `x` or one more, and `s` is
`x / 10 ^ e` rounded down or up: the multiples of `10 ^ e` next to `x`. -/
def candidates (x k : Nat) : List (Nat × Nat) :=
  [(Nat.toDigits 10 x).length, (Nat.toDigits 10 x).length + 1].flatMap fun n =>
    if k ≤ n then
      ([x / 10 ^ (n - k), x / 10 ^ (n - k) + 1].filter (fun s =>
          decide (10 ^ (k - 1) ≤ s ∧ s < 10 ^ k ∧ roundToNumber (s * 10 ^ (n - k)) = x))).map
        (fun s => (s, n - k))
    else []

/-- Distance from `x` to the value `s * 10 ^ e` of a candidate. -/
def distance (x : Nat) (c : Nat × Nat) : Nat :=
  if c.1 * 10 ^ c.2 ≤ x then x - c.1 * 10 ^ c.2 else c.1 * 10 ^ c.2 - x

/-- Of two candidates the one closer to `x`, the even `s` when both are as
close. -/
def closer (x : Nat) (a b : Nat × Nat) : Nat × Nat :=
  if distance x b < distance x a then b
  else if distance x a < distance x b then a
  else if a.1 % 2 = 0 then a else b

/-- The candidate closest to `x`, if there is one. -/
def closest (x : Nat) : List (Nat × Nat) → Option (Nat × Nat)
  | [] => none
  | c :: cs => some (cs.foldl (closer x) c)

/-- The digits `s` and the exponent `e` chosen by `Number::toString` for the
Number `x`: `k` as small as possible, then `s * 10 ^ e` as close to `x` as
possible.  The digits of `x` itself are always a candidate, so the search ends
at the number of digits of `x` at the latest. -/
def shortest (x : Nat) : Nat × Nat :=
  ((List.range (Nat.toDigits 10 x).length).findSome? fun i =>
    closest x (candidates x (i + 1))).getD (x, 0)

/-- The digits of `s` with a decimal point after the first one, when there is
more than one. -/
def mantissa : List Char → List Char
  | [] => []
  | [c] => [c]
  | c :: rest => c :: '.' :: rest

/-- The rendering of `s * 10 ^ e`, `digits` being the digits of `s`: with
`n = k + e` at most 21 the digits followed by `e` zeros, otherwise the mantissa,
`e+` and `n - 1`. -/
def formatDecimal (digits : List Char) (e : Nat) : List Char :=
  if digits.length + e ≤ 21 then digits ++ List.replicate e '0'
  else mantissa digits ++ ['e', '+'] ++ Nat.toDigits 10 (digits.length + e - 1)

/-- The rendering of a Number that is a natural number.  For `x = 0` no
candidate exists and `shortest` gives `(0, 0)`: the rendering is "0". -/
def renderNat (x : Nat) : List Char :=
  formatDecimal (Nat.toDigits 10 (shortest x).1) (shortest x).2

/-- Model of `Number::toString` (radix 10) on the Numbers that are integers:
what `${n}` and the property key of `names[n]` are. -/
def numberToString (n : Int) : String :=
  String.mk (if n < 0 then '-' :: renderNat n.natAbs else renderNat n.natAbs)

/-- The table `names` of `verseName`; the property keys of an object are
strings. -/
def names : List (String × String) :=
  [ ("1", "Monosílabo"), ("2", "Bisílabo"), ("3", "Trisílabo"), ("4", "Tetrasílabo"),
    ("5", "Pentasílabo"), ("6", "Hexasílabo"), ("7", "Heptasílabo"), ("8", "Octosílabo"),
    ("9", "Eneasílabo"), ("10", "Decasílabo"), ("11", "Endecasílabo"),
    ("12", "Dodecasílabo"), ("13", "Tridecasílabo"), ("14", "Alejandrino") ]

/-- Source: `verseName(n)`, for a Number `n` that is an integer: `names[n]`
looks the rendering of `n` up among the keys, and the template literal renders
`n` again.  Every name of the table is a non-empty string, hence truthy. -/
def verseName (n : Int) : String :=
  match names.lookup (numberToString n) with
  | some name => name
  | none => numberToString n ++ " sílabas"

/-! ### Definitions that follow the specification, and auxiliary ones -/

/-- The greedy left-to-right scan as the specification words it: a consonant
adds nothing, a vowel adds one syllable, and the second vowel of a pair found
in the diphthong table is skipped. -/
def greedy : JSString → Nat
  | [] => 0
  | [c] => if isVowel c then 1 else 0
  | c :: d :: r =>
    if isVowel c then
      if isVowel d ∧ [c, d] ∈ DIPHTHONGS then 1 + greedy r else 1 + greedy (d :: r)
    else greedy (d :: r)

/-- The word is written with Spanish letters, an accented letter being either
precomposed or decomposed: a base letter directly followed by the combining
mark it composes with. -/
def isDecomposedSpanish : JSString → Bool
  | [] => true
  | [u] => isSpanishLetter u
  | u :: v :: rest =>
    match compose u v with
    | some _ => isDecomposedSpanish rest
    | none => isSpanishLetter u && isDecomposedSpanish (v :: rest)

/-- The verse names in the order of the specification, from one syllable to
fourteen. -/
def verseNameList : List String :=
  [ "Monosílabo", "Bisílabo", "Trisílabo", "Tetrasílabo", "Pentasílabo", "Hexasílabo",
    "Heptasílabo", "Octosílabo", "Eneasílabo", "Decasílabo", "Endecasílabo", "Dodecasílabo",
    "Tridecasílabo", "Alejandrino" ]

/-- Syllables contributed by one token of `countText`: `countWord` of the
token with every character that is not a Spanish letter removed, and 0 when
nothing is left. -/
def tokenSyllables (tok : JSString) : Nat :=
  if clean tok = [] then 0 else countWord (clean tok)

/-- Lower-case mapping of a code unit other than U+0130, as one code unit. -/
def lowerLetter (u : Nat) : Nat :=
  if 0x41 ≤ u ∧ u ≤ 0x5A then u + 32
  else if 0xC0 ≤ u ∧ u ≤ 0xDE ∧ u ≠ 0xD7 then u + 32
  else u

/-- Two code units are the same letter up to case: equal, or two Spanish
letters with one lower-case form. -/
def sameLetter (a b : Nat) : Prop :=
  a = b ∨ (isSpanishLetter a = true ∧ isSpanishLetter b = true ∧ lowerLetter a = lowerLetter b)

instance sameLetterDecidable (a b : Nat) : Decidable (sameLetter a b) := by
  unfold sameLetter
  infer_instance

/-- Lower-cases the Spanish letters and keeps every other code unit. -/
def foldLetter (u : Nat) : Nat := if isSpanishLetter u then lowerLetter u else u

/-- Source: `countWords(text)`. -/
def countWords (text : JSString) : Nat :=
  if text = [] ∨ trim text = [] then 0
  else ((splitWs (trim text)).filter (fun w => decide (w.length > 0))).length

/-- The maximal non-empty runs of code units that are not separators: the
string is cut at every separator and the empty pieces are dropped. -/
def maximalRuns (sep : Nat → Bool) (s : JSString) : List JSString :=
  (s.splitOnP sep).filter (fun run => decide (run ≠ []))

/-- Sum of `f` over the runs between separators, in one pass: `cur` is the run
being read, closed at each separator and at the end. -/
def sumRuns (sep : Nat → Bool) (f : JSString → Nat) : JSString → JSString → Nat
  | cur, [] => f cur
  | cur, u :: rest =>
    if sep u then f cur + sumRuns sep f [] rest else sumRuns sep f (cur ++ [u]) rest

/-- The text with every code unit removed that is neither white space nor a
Spanish letter. -/
def lettersAndSpaces (text : JSString) : JSString :=
  text.filter (fun u => isSpace u || isSpanishLetter u)

/-- Number of vowels of a word. -/
def vowelCount (w : JSString) : Nat := (w.filter isVowel).length

/-- Value of a list of decimal digits, most significant first. -/
def digitsValue (ds : List Char) (start : Nat) : Nat :=
  ds.foldl (fun acc c => 10 * acc + (c.toNat - 48)) start

/-- Number of runs of the body of the `while` loop of `countWord`, started in
state `s` and observed for at most `fuel` iterations. -/
def whileSteps (word : JSString) : Nat → LoopState → Nat
  | 0, _ => 0
  | fuel + 1, s =>
    if h : s.i < word.length then 1 + whileSteps word fuel (loopBody word s h) else 0

/-- The indices at which one run of the loop body, entered with index `i`,
reads `word`, in the order of evaluation: `isVowel(word[i])`; then, when it
holds and `i + 1 < word.length` holds, `isVowel(word[i+1])` (the right operand
of `&&` is not evaluated otherwise); then, when that holds too, `word[i]` and
`word[i+1]` for `pair`.  A read beyond the end gives `undefined`, which is no
vowel. -/
def bodyReads (word : JSString) (i : Nat) : List Nat :=
  i :: (if (word[i]?).any isVowel then
          if i + 1 < word.length then
            (i + 1) :: (if (word[i + 1]?).any isVowel then [i, i + 1] else [])
          else []
        else [])

end Syllables

/-! # Editor history (`src/app.js`, module `EditorHistory`)

The undo/redo stack of the editor.  `save` only arms a timer; the state
changes when the timer fires, which is modelled as the step `commit` with the
text that `save` was given. -/

namespace EditorHistory

open Syllables

/-- Source: `let stack = [], index = -1`, the state of the module. -/
structure State where
  stack : List JSString
  index : Int
deriving DecidableEq, Repr

/-- The state when the module is loaded. -/
def initial : State := ⟨[], -1⟩

/-- What `undo` and `redo` return: `null`, `undefined` (a read outside the
stack) or a text of the stack. -/
inductive Result where
  | null
  | undefined
  | text (t : JSString)
deriving DecidableEq, Repr

/-- Source: `stack.slice(0, e)`: a negative `e` counts from the end. -/
def slice0 (stack : List JSString) (e : Int) : List JSString :=
  if e < 0 then stack.take (stack.length - e.natAbs) else stack.take e.toNat

/-- Source: `stack[k]`. -/
def readStack (stack : List JSString) (k : Int) : Result :=
  if k < 0 then Result.undefined
  else
    match stack[k.toNat]? with
    | some t => Result.text t
    | none => Result.undefined

/-- Source: the timer callback of `save(text)`. -/
def commit (text : JSString) (s : State) : State :=
  let stack := slice0 s.stack (s.index + 1)
  let stack := stack ++ [text]
  let stack := if stack.length > 100 then stack.tail else stack
  ⟨stack, (stack.length : Int) - 1⟩

/-- Source: `undo()`, `index > 0 ? stack[--index] : null`. -/
def undo (s : State) : State × Result :=
  if s.index > 0 then (⟨s.stack, s.index - 1⟩, readStack s.stack (s.index - 1))
  else (s, Result.null)

/-- Source: `redo()`, `index < stack.length - 1 ? stack[++index] : null`. -/
def redo (s : State) : State × Result :=
  if s.index < (s.stack.length : Int) - 1 then
    (⟨s.stack, s.index + 1⟩, readStack s.stack (s.index + 1))
  else (s, Result.null)

/-- Source: `reset(text)`. -/
def reset (text : JSString) (_ : State) : State := ⟨[text], 0⟩

/-- One step of the history after `reset`. -/
inductive Step where
  | commit (text : JSString)
  | undo
  | redo
deriving DecidableEq, Repr

/-- The state after one step. -/
def step (s : State) : Step → State
  | Step.commit text => commit text s
  | Step.undo => (undo s).1
  | Step.redo => (redo s).1

/-- The state after a sequence of steps. -/
def run (s : State) (steps : List Step) : State := steps.foldl step s

/-- The cursor is inside a stack of at most 100 entries. -/
def Inv (s : State) : Prop :=
  0 ≤ s.index ∧ s.index < (s.stack.length : Int) ∧ s.stack.length ≤ 100

/-- The result is `null` or a text stored in the stack. -/
def NullOrStored (s : State) (r : Result) : Prop :=
  r = Result.null ∨ ∃ t ∈ s.stack, r = Result.text t

end EditorHistory

namespace Syllables

/-! ## The loop of `countWord` -/

theorem loopBody_step (word : JSString) (s : LoopState) (h : s.i < word.length) :
    (loopBody word s h).count + greedy (word.drop (loopBody word s h).i)
        = s.count + greedy (word.drop s.i)
      ∧ s.i < (loopBody word s h).i ∧ (loopBody word s h).i ≤ s.i + 2
      ∧ (loopBody word s h).i ≤ word.length := by
  have hd : word.drop s.i = word[s.i] :: word.drop (s.i + 1) := List.drop_eq_getElem_cons h
  by_cases h1 : s.i + 1 < word.length
  · have hd1 : word.drop (s.i + 1) = word[s.i + 1] :: word.drop (s.i + 2) :=
      List.drop_eq_getElem_cons h1
    rw [hd, hd1]
    unfold loopBody
    simp only [List.get_eq_getElem, h1, dite_true]
    by_cases hv : isVowel word[s.i] = true
    · by_cases hv1 : isVowel word[s.i + 1] = true
      · by_cases hp : [word[s.i], word[s.i + 1]] ∈ DIPHTHONGS
        · simp only [hv, hv1, hp, greedy, hd1, if_true, if_false, Bool.false_eq_true, and_self, and_false,
            false_and]
          refine ⟨?_, ?_, ?_, ?_⟩ <;> first | trivial | omega
        · simp only [hv, hv1, hp, greedy, hd1, if_true, if_false, Bool.false_eq_true, and_self, and_false,
            false_and]
          refine ⟨?_, ?_, ?_, ?_⟩ <;> first | trivial | omega
      · simp only [hv, hv1, greedy, hd1, if_true, if_false, Bool.false_eq_true, and_self, and_false,
            false_and]
        refine ⟨?_, ?_, ?_, ?_⟩ <;> first | trivial | omega
    · simp only [hv, greedy, hd1, if_true, if_false, Bool.false_eq_true, and_self, and_false,
            false_and]
      refine ⟨?_, ?_, ?_, ?_⟩ <;> first | trivial | omega
  · have hd1 : word.drop (s.i + 1) = [] := List.drop_eq_nil_of_le (by omega)
    rw [hd, hd1]
    unfold loopBody
    simp only [List.get_eq_getElem, h1, dite_false]
    by_cases hv : isVowel word[s.i] = true
    · simp only [hv, greedy, hd1, if_true, if_false, Bool.false_eq_true, and_self, and_false,
            false_and]
      refine ⟨?_, ?_, ?_, ?_⟩ <;> first | trivial | omega
    · simp only [hv, greedy, hd1, if_true, if_false, Bool.false_eq_true, and_self, and_false,
            false_and]
      refine ⟨?_, ?_, ?_, ?_⟩ <;> first | trivial | omega

theorem whileLoop_spec (word : JSString) :
    ∀ (fuel : Nat) (s : LoopState), word.length - s.i ≤ fuel →
      (whileLoop word fuel s).count = s.count + greedy (word.drop s.i)
        ∧ word.length ≤ (whileLoop word fuel s).i := by
  intro fuel
  induction fuel with
  | zero =>
    intro s hs
    have : word.drop s.i = [] := List.drop_eq_nil_of_le (by omega)
    simp only [whileLoop, this, greedy]
    omega
  | succ n ih =>
    intro s hs
    unfold whileLoop
    by_cases h : s.i < word.length
    · simp only [h, dite_true]
      obtain ⟨e, lt, _, _⟩ := loopBody_step word s h
      obtain ⟨e2, ex⟩ := ih (loopBody word s h) (by omega)
      exact ⟨by rw [e2, e], ex⟩
    · have : word.drop s.i = [] := List.drop_eq_nil_of_le (by omega)
      simp only [h, dite_false, this, greedy]
      omega

/-- The loop has left `while (i < word.length)` once it has run `word.length`
times. -/
theorem whileLoop_exit (word : JSString) :
    word.length ≤ (whileLoop word word.length ⟨0, 0⟩).i :=
  (whileLoop_spec word word.length ⟨0, 0⟩ (by simp)).2

/-- Further iterations change nothing: the result of the loop does not depend
on the fuel once it is at least `word.length`. -/
theorem whileLoop_more_fuel (word : JSString) (fuel : Nat) (h : word.length ≤ fuel) :
    (whileLoop word fuel ⟨0, 0⟩).count = (whileLoop word word.length ⟨0, 0⟩).count := by
  rw [(whileLoop_spec word fuel ⟨0, 0⟩ (by simpa using h)).1,
    (whileLoop_spec word word.length ⟨0, 0⟩ (by simp)).1]

theorem countWord_eq_greedy (word : JSString) (h : word ≠ []) :
    countWord word = max 1 (greedy (nfc (toLowerCase word))) := by
  unfold countWord
  simp only [h, if_false]
  have := (whileLoop_spec (nfc (toLowerCase word)) (nfc (toLowerCase word)).length ⟨0, 0⟩
    (by simp)).1
  simp only [List.drop_zero, Nat.zero_add] at this
  rw [this]

/-! ## `countWord` and the scan of the specification -/

/-- C5: for every non-empty word `w`, `countWord w` is `max 1 (g w')` where
`w'` is the lower-cased NFC form of `w` and `g` is the greedy left-to-right
scan of the specification (`greedy`): the empty word scans to 0, a consonant
adds nothing, a vowel adds 1, and the second vowel of a pair found in the
diphthong table is skipped. -/
theorem countWord_is_greedy_scan (w : JSString) (h : w ≠ []) :
    countWord w = max 1 (greedy (nfc (toLowerCase w))) := by
  unfold countWord
  rw [if_neg h]
  have hloop := whileLoop_spec (nfc (toLowerCase w)) (nfc (toLowerCase w)).length ⟨0, 0⟩
    (Nat.sub_le _ _)
  simp only [List.drop_zero, Nat.zero_add] at hloop
  show max 1 (whileLoop (nfc (toLowerCase w)) (nfc (toLowerCase w)).length ⟨0, 0⟩).count
    = max 1 (greedy (nfc (toLowerCase w)))
  rw [hloop.1]

/-- C5 at "aire" and "ciudad": both count two syllables. -/
theorem countWord_is_greedy_scan_witness :
    (str "aire" ≠ [] ∧ countWord (str "aire") = 2)
      ∧ (str "ciudad" ≠ [] ∧ countWord (str "ciudad") = 2) :=
  ⟨⟨by decide, (countWord_is_greedy_scan (str "aire") (by decide)).trans (by decide)⟩,
   ⟨by decide, (countWord_is_greedy_scan (str "ciudad") (by decide)).trans (by decide)⟩⟩

/-! ## Texts: white space, tokens and cleaning -/

theorem foldl_add_eq_sum (f : JSString → Nat) (l : List JSString) (a : Nat) :
    l.foldl (fun sum w => sum + f w) a = a + (l.map f).sum := by
  induction l generalizing a with
  | nil => simp
  | cons x xs ih => simp only [List.foldl_cons, ih, List.map_cons, List.sum_cons]; omega

theorem countText_eq_sum (text : JSString) :
    countText text = ((splitWs (trim text)).map tokenSyllables).sum := by
  unfold countText
  by_cases h : text = [] ∨ trim text = []
  · have ht : trim text = [] := by
      rcases h with h | h
      · rw [h]; rfl
      · exact h
    rw [if_pos h, ht]
    rfl
  · rw [if_neg h, foldl_add_eq_sum]
    simp only [Nat.zero_add]
    congr 1
    apply List.map_congr_left
    intro w _
    unfold tokenSyllables
    by_cases hc : clean w = []
    · simp only [hc, ne_eq, not_true_eq_false, if_false, if_true]
    · simp only [hc, ne_eq, not_false_eq_true, if_true, if_false]

theorem countWord_pos (w : JSString) (h : w ≠ []) : 1 ≤ countWord w := by
  unfold countWord
  simp only [h, if_false]
  exact Nat.le_max_left _ _

theorem tokenSyllables_eq_zero (tok : JSString) : tokenSyllables tok = 0 ↔ clean tok = [] := by
  unfold tokenSyllables
  by_cases hc : clean tok = []
  · simp only [hc, if_true]
  · have := countWord_pos _ hc
    simp only [hc, if_false, iff_false]
    omega

/-- The pieces of `split(/\s+/)` put together are the string without its white
space. -/
theorem splitWs_flatten (s : JSString) :
    (splitWs s).flatten = s.filter (fun u => !isSpace u) := by
  induction s with
  | nil => rfl
  | cons u rest ih =>
    unfold splitWs
    by_cases hu : isSpace u = true
    · simp only [hu, if_true, List.filter_cons, Bool.not_true, Bool.false_eq_true, if_false]
      cases rest with
      | nil => rfl
      | cons v r =>
        simp only
        by_cases hv : isSpace v = true
        · simp only [hv, if_true]; exact ih
        · simp only [hv, if_false, List.flatten_cons, List.nil_append]; exact ih
    · simp only [hu, if_false, List.filter_cons, Bool.not_eq_true, Bool.not_false, if_true]
      rw [← ih]
      cases h : splitWs rest with
      | nil => simp
      | cons tok toks => simp

theorem dropWhile_filter_not (p : Nat → Bool) (s : JSString) :
    (s.dropWhile p).filter (fun u => !p u) = s.filter (fun u => !p u) := by
  induction s with
  | nil => rfl
  | cons u rest ih =>
    by_cases hu : p u = true
    · simp only [List.dropWhile_cons, hu, if_true, List.filter_cons, Bool.not_true,
        Bool.false_eq_true, if_false, ih]
    · simp only [List.dropWhile_cons, hu, if_false, Bool.false_eq_true]

/-- Trimming only removes white space. -/
theorem trim_filter (s : JSString) :
    (trim s).filter (fun u => !isSpace u) = s.filter (fun u => !isSpace u) := by
  unfold trim
  rw [List.filter_reverse, dropWhile_filter_not, List.filter_reverse, List.reverse_reverse,
    dropWhile_filter_not]

theorem str_lower_accents : str "áéíóúüñ" = [0xE1, 0xE9, 0xED, 0xF3, 0xFA, 0xFC, 0xF1] := by
  decide

theorem str_upper_accents : str "ÁÉÍÓÚÜÑ" = [0xC1, 0xC9, 0xCD, 0xD3, 0xDA, 0xDC, 0xD1] := by
  decide

theorem isSpanishLetter_lt (u : Nat) (h : isSpanishLetter u = true) : u < 256 := by
  unfold isSpanishLetter at h
  rw [str_lower_accents, str_upper_accents] at h
  simp only [Bool.or_eq_true, Bool.and_eq_true, decide_eq_true_eq, List.mem_cons,
    List.mem_singleton, List.not_mem_nil, or_false] at h
  omega

set_option maxRecDepth 100000 in
theorem small_letter_not_space :
    ∀ u < 256, isSpanishLetter u = true → isSpace u = false := by
  decide

theorem isSpanishLetter_not_space (u : Nat) (h : isSpanishLetter u = true) :
    isSpace u = false :=
  small_letter_not_space u (isSpanishLetter_lt u h) h

/-- Cleaning the tokens of a text cleans the text: white space is no Spanish
letter, and nothing else is lost by `trim` and `split`. -/
theorem clean_tokens (text : JSString) :
    clean (splitWs (trim text)).flatten = clean text := by
  unfold clean
  have key : ∀ l : JSString,
      l.filter (fun a => isSpanishLetter a && !isSpace a) = l.filter isSpanishLetter := by
    intro l
    apply List.filter_congr
    intro x _
    by_cases hx : isSpanishLetter x = true
    · simp only [hx, isSpanishLetter_not_space x hx, Bool.not_false, Bool.and_self]
    · simp only [hx, Bool.false_and]
  have h := congrArg (List.filter isSpanishLetter) (trim_filter text)
  rw [List.filter_filter, List.filter_filter, key, key] at h
  rw [splitWs_flatten, List.filter_filter, key, h]

theorem countText_eq_zero_iff (text : JSString) :
    countText text = 0 ↔ ∀ u ∈ text, isSpanishLetter u = false := by
  rw [countText_eq_sum, List.sum_eq_zero_iff]
  have h1 : (∀ x ∈ (splitWs (trim text)).map tokenSyllables, x = 0)
      ↔ ∀ tok ∈ splitWs (trim text), clean tok = [] := by
    constructor
    · intro h tok htok
      exact (tokenSyllables_eq_zero tok).1 (h _ (List.mem_map_of_mem _ htok))
    · intro h x hx
      obtain ⟨tok, htok, rfl⟩ := List.mem_map.1 hx
      exact (tokenSyllables_eq_zero tok).2 (h tok htok)
  have h2 : (∀ tok ∈ splitWs (trim text), clean tok = [])
      ↔ clean (splitWs (trim text)).flatten = [] := by
    unfold clean
    simp only [List.filter_eq_nil_iff, List.mem_flatten]
    constructor
    · rintro h a ⟨tok, htok, ha⟩
      exact h tok htok a ha
    · intro h tok htok a ha
      exact h a ⟨tok, htok, ha⟩
  rw [h1, h2, clean_tokens]
  unfold clean
  simp only [List.filter_eq_nil_iff, Bool.not_eq_true]

/-! ## Claims on `countText` -/

/-- C1: compositionality of `countText`.  For every text, `countText` is the
sum, over the tokens obtained by trimming the text and splitting it on runs of
white space, of `countWord` of the token with every character that is not a
Spanish letter removed, a token that becomes empty contributing 0.  At
"Verso de once sílabas" the tokens are the four words and the count is the sum
of their four counts. -/
theorem countText_compositional :
    (∀ text : JSString,
        countText text = ((splitWs (trim text)).map
          (fun tok => if clean tok = [] then 0 else countWord (clean tok))).sum)
      ∧ splitWs (trim (str "Verso de once sílabas"))
          = [str "Verso", str "de", str "once", str "sílabas"]
      ∧ countText (str "Verso de once sílabas")
          = countWord (str "Verso") + countWord (str "de") + countWord (str "once")
            + countWord (str "sílabas") := by
  refine ⟨?_, by decide, by decide⟩
  intro text
  unfold countText
  by_cases h : text = [] ∨ trim text = []
  · have ht : trim text = [] := by
      rcases h with h | h
      · rw [h]; rfl
      · exact h
    rw [if_pos h, ht]
    rfl
  · rw [if_neg h, foldl_add_eq_sum, Nat.zero_add]
    congr 1
    apply List.map_congr_left
    intro w _
    by_cases hc : clean w = []
    · simp only [hc, ne_eq, not_true_eq_false, if_false, if_true]
    · simp only [hc, ne_eq, not_false_eq_true, if_true, if_false]

/-- C3: `countText` is zero exactly on letter-free text.  For every text,
`countText text = 0` if and only if the text contains no Spanish letter, and
the count is at least 1 if and only if it contains one; the empty string,
white-space-only text and digit or punctuation text give 0. -/
theorem countText_zero_iff_no_letter :
    (∀ text : JSString,
        (countText text = 0 ↔ ∀ u ∈ text, isSpanishLetter u = false)
          ∧ (1 ≤ countText text ↔ ∃ u ∈ text, isSpanishLetter u = true))
      ∧ countText (str "") = 0 ∧ countText (str " \n\t ") = 0
      ∧ countText (str "12, 34... ¡¿?!") = 0 := by
  refine ⟨?_, by decide, by decide, by decide⟩
  intro text
  have hz := countText_eq_zero_iff text
  refine ⟨hz, ?_⟩
  constructor
  · intro h
    by_contra hne
    have : ∀ u ∈ text, isSpanishLetter u = false := by
      intro u hu
      by_contra hu2
      exact hne ⟨u, hu, by simpa using hu2⟩
    have := hz.2 this
    omega
  · rintro ⟨u, hu, hl⟩
    by_contra h0
    have h0 : countText text = 0 := by omega
    have := hz.1 h0 u hu
    rw [hl] at this
    exact Bool.noConfusion this

/-! ## Case mapping and NFC on Spanish letters -/

theorem toLowerUnit_eq (u : Nat) (h : u ≠ 0x130) : toLowerUnit u = [lowerLetter u] := by
  unfold toLowerUnit lowerLetter
  split_ifs <;> rfl

theorem toLowerCase_eq_map (w : JSString) (h : ∀ c ∈ w, c ≠ 0x130) :
    toLowerCase w = w.map lowerLetter := by
  induction w with
  | nil => rfl
  | cons u rest ih =>
    have hu := toLowerUnit_eq u (h u (List.mem_cons_self _ _))
    have hr := ih (fun c hc => h c (List.mem_cons_of_mem _ hc))
    unfold toLowerCase at hr ⊢
    rw [List.flatMap_cons, hu, hr]
    rfl

theorem lowerLetter_of_ge (u : Nat) (h : 256 ≤ u) : lowerLetter u = u := by
  unfold lowerLetter
  split_ifs <;> omega

set_option maxRecDepth 100000 in
theorem small_lowerLetter_class :
    ∀ u < 256, isVowel (lowerLetter u) = isVowel u ∧ isStrong (lowerLetter u) = isStrong u
      ∧ lowerLetter u < 256 := by
  decide

theorem isVowel_lowerLetter (u : Nat) : isVowel (lowerLetter u) = isVowel u := by
  by_cases h : u < 256
  · exact (small_lowerLetter_class u h).1
  · rw [lowerLetter_of_ge u (by omega)]

theorem isStrong_lowerLetter (u : Nat) : isStrong (lowerLetter u) = isStrong u := by
  by_cases h : u < 256
  · exact (small_lowerLetter_class u h).2.1
  · rw [lowerLetter_of_ge u (by omega)]

theorem mem_of_lookup {α β : Type} [BEq α] [LawfulBEq α] (k : α) (v : β) :
    ∀ l : List (α × β), l.lookup k = some v → (k, v) ∈ l := by
  intro l
  induction l with
  | nil => intro h; simp at h
  | cons e es ih =>
    obtain ⟨a, b⟩ := e
    intro h
    rw [List.lookup_cons] at h
    by_cases hk : (k == a) = true
    · rw [hk] at h
      have ha : k = a := eq_of_beq hk
      have hb : b = v := by simpa using h
      rw [ha, hb]
      exact List.mem_cons_self _ _
    · have hk2 : (k == a) = false := by simpa using hk
      rw [hk2] at h
      exact List.mem_cons_of_mem _ (ih h)

theorem compose_mem (u v r : Nat) (h : compose u v = some r) : ((u, v), r) ∈ compositions :=
  mem_of_lookup (u, v) r compositions h

theorem compositions_mark : ∀ e ∈ compositions, 0x300 ≤ e.1.2 ∧ e.1.1 < 0x80 ∧ e.2 < 0x100 := by
  decide

/-- Only a combining mark composes with the letter before it. -/
theorem compose_none_of_lt (u v : Nat) (h : v < 0x300) : compose u v = none := by
  cases hc : compose u v with
  | none => rfl
  | some r =>
    have := (compositions_mark _ (compose_mem u v r hc)).1
    simp only at this
    omega

/-- NFC keeps a string without combining marks as it is. -/
theorem nfc_eq_self (w : JSString) (h : ∀ c ∈ w, c < 0x300) : nfc w = w := by
  induction w with
  | nil => rfl
  | cons u rest ih =>
    have hr := ih (fun c hc => h c (List.mem_cons_of_mem _ hc))
    cases rest with
    | nil => rfl
    | cons v r =>
      have hv : v < 0x300 := h v (List.mem_cons_of_mem _ (List.mem_cons_self _ _))
      unfold nfc
      rw [compose_none_of_lt u v hv]
      simp only
      rw [hr]

theorem nfc_eq_nil (w : JSString) : nfc w = [] ↔ w = [] := by
  constructor
  · intro h
    cases w with
    | nil => rfl
    | cons u rest =>
      cases rest with
      | nil => simp [nfc] at h
      | cons v r =>
        unfold nfc at h
        cases hc : compose u v <;> simp [hc] at h
  · intro h
    rw [h]
    rfl

theorem isSpanishLetter_ne_dotted (u : Nat) (h : isSpanishLetter u = true) : u ≠ 0x130 := by
  have := isSpanishLetter_lt u h
  omega

/-- On a word of Spanish letters the lower-cased NFC form is the word with
each letter lower-cased. -/
theorem normal_form_spanish (w : JSString) (h : ∀ c ∈ w, isSpanishLetter c = true) :
    nfc (toLowerCase w) = w.map lowerLetter := by
  rw [toLowerCase_eq_map w (fun c hc => isSpanishLetter_ne_dotted c (h c hc))]
  apply nfc_eq_self
  intro c hc
  obtain ⟨a, ha, rfl⟩ := List.mem_map.1 hc
  have := (small_lowerLetter_class a (isSpanishLetter_lt a (h a ha))).2.2
  omega

/-! ## Scanning words without vowels, and words without diphthongs -/

theorem greedy_no_vowel (w : JSString) (h : ∀ c ∈ w, isVowel c = false) : greedy w = 0 := by
  induction w with
  | nil => rfl
  | cons u rest ih =>
    have hu : isVowel u = false := h u (List.mem_cons_self _ _)
    have hr := ih (fun c hc => h c (List.mem_cons_of_mem _ hc))
    cases rest with
    | nil => simp only [greedy, hu, Bool.false_eq_true, if_false]
    | cons v r => simp only [greedy, hu, Bool.false_eq_true, if_false, hr]

set_option maxRecDepth 100000 in
theorem diphthongs_not_strong : ∀ p ∈ DIPHTHONGS, p.all isStrong = false := by
  decide

theorem pair_not_strong (c d : Nat) (h : [c, d] ∈ DIPHTHONGS) :
    ¬(isStrong c = true ∧ isStrong d = true) := by
  have := diphthongs_not_strong _ h
  simp only [List.all_cons, List.all_nil, Bool.and_true, Bool.and_eq_false_imp] at this
  rintro ⟨hc, hd⟩
  rw [this hc] at hd
  exact Bool.noConfusion hd

/-- With only strong vowels no pair is a diphthong, so the scan counts every
vowel. -/
theorem greedy_all_strong (w : JSString)
    (h : ∀ c ∈ w, isVowel c = true → isStrong c = true) :
    greedy w = (w.filter isVowel).length := by
  induction w with
  | nil => rfl
  | cons u rest ih =>
    have hr := ih (fun c hc => h c (List.mem_cons_of_mem _ hc))
    cases rest with
    | nil =>
      by_cases hu : isVowel u = true
      · simp [greedy, hu]
      · simp [greedy, hu]
    | cons v r =>
      by_cases hu : isVowel u = true
      · have hnp : ¬(isVowel v = true ∧ [u, v] ∈ DIPHTHONGS) := by
          rintro ⟨hv, hp⟩
          exact pair_not_strong u v hp
            ⟨h u (List.mem_cons_self _ _) hu,
             h v (List.mem_cons_of_mem _ (List.mem_cons_self _ _)) hv⟩
        rw [greedy, if_pos hu, if_neg hnp, hr, List.filter_cons_of_pos hu]
        simp only [List.length_cons]
        omega
      · rw [greedy, if_neg hu, hr, List.filter_cons_of_neg hu]

theorem filter_isVowel_map_lower (w : JSString) :
    ((w.map lowerLetter).filter isVowel).length = (w.filter isVowel).length := by
  induction w with
  | nil => rfl
  | cons u rest ih =>
    by_cases hu : isVowel u = true
    · have hl : isVowel (lowerLetter u) = true := by rw [isVowel_lowerLetter]; exact hu
      rw [List.map_cons, List.filter_cons_of_pos hl, List.filter_cons_of_pos hu]
      simp only [List.length_cons, ih]
    · have hl : ¬isVowel (lowerLetter u) = true := by rw [isVowel_lowerLetter]; exact hu
      rw [List.map_cons, List.filter_cons_of_neg hl, List.filter_cons_of_neg hu, ih]

/-- The only call of `countWord`, in `countText`, passes a cleaned token: a
word of Spanish letters. -/
theorem clean_spanish (tok : JSString) : ∀ c ∈ clean tok, isSpanishLetter c = true := by
  intro c hc
  unfold clean at hc
  exact (List.mem_filter.1 hc).2

/-! ## Claims on `countWord`: clamp, diphthong table, hiatus -/

/-- C2: word-level clamp of `countWord`.  `countWord` of the empty word is 0;
every non-empty word counts at least 1; a non-empty word whose lower-cased NFC
form holds no vowel counts exactly 1; and so does every non-empty word of
Spanish letters that holds no vowel.  Words of Spanish letters are the words
`countWord` is given: it is private to the module and its only call, in
`countText`, passes a cleaned token. -/
theorem countWord_clamp (w : JSString) (h : w ≠ []) :
    countWord [] = 0 ∧ 1 ≤ countWord w
      ∧ ((∀ c ∈ nfc (toLowerCase w), isVowel c = false) → countWord w = 1)
      ∧ ((∀ c ∈ w, isSpanishLetter c = true ∧ isVowel c = false) → countWord w = 1)
      ∧ (∀ tok : JSString, ∀ c ∈ clean tok, isSpanishLetter c = true) := by
  have hg := countWord_eq_greedy w h
  refine ⟨rfl, ?_, ?_, ?_, clean_spanish⟩
  · rw [hg]
    exact Nat.le_max_left _ _
  · intro hv
    rw [hg, greedy_no_vowel _ hv]
    rfl
  · intro hs
    rw [hg, normal_form_spanish w (fun c hc => (hs c hc).1), greedy_no_vowel]
    · rfl
    · intro c hc
      obtain ⟨a, ha, rfl⟩ := List.mem_map.1 hc
      rw [isVowel_lowerLetter]
      exact (hs a ha).2

/-- C2 at "brr": a vowel-free word of Spanish letters counts 1. -/
theorem countWord_clamp_witness :
    str "brr" ≠ [] ∧ countWord [] = 0 ∧ 1 ≤ countWord (str "brr")
      ∧ countWord (str "brr") = 1 :=
  ⟨by decide, (countWord_clamp (str "brr") (by decide)).1,
    (countWord_clamp (str "brr") (by decide)).2.1,
    (countWord_clamp (str "brr") (by decide)).2.2.2.1 (by decide)⟩

/-- C6, as stated, fails at the pair "ía": `í` is weak and `a` is strong, the
pair is not in the table, and the two-letter word counts 2. -/
theorem diphthong_table_counterexample :
    isStrong 0x61 = true ∧ 0xED ∈ WEAK ∧ str "ía" = [0xED, 0x61]
      ∧ str "ía" ∉ DIPHTHONGS ∧ countWord (str "ía") = 2 := by
  decide

set_option maxRecDepth 100000 in
/-- C6, amended: the diphthong table contains every pair of a strong vowel
(a, e, o, á, é, ó) with an unaccented weak vowel i or u, in either order, the
pair "óu" left aside, and it contains "üe"; the two-letter word made of such a
pair counts 1.  A pair of a strong vowel with an accented weak vowel (í, ú), in
either order, is not in the table, and the two-letter word counts 2. -/
theorem diphthong_table_pairs :
    (∀ s ∈ str "aeoáéó", ∀ k ∈ str "iu",
        [k, s] ∈ DIPHTHONGS ∧ countWord [k, s] = 1)
      ∧ (∀ s ∈ str "aeoáéó", ∀ k ∈ str "iu", [s, k] ≠ str "óu" →
        [s, k] ∈ DIPHTHONGS ∧ countWord [s, k] = 1)
      ∧ (str "üe" ∈ DIPHTHONGS ∧ countWord (str "üe") = 1)
      ∧ (∀ s ∈ str "aeoáéó", ∀ k ∈ str "íú",
        [s, k] ∉ DIPHTHONGS ∧ [k, s] ∉ DIPHTHONGS
          ∧ countWord [s, k] = 2 ∧ countWord [k, s] = 2) := by
  decide

set_option maxRecDepth 100000 in
theorem strong_pairs_absent : ∀ a ∈ STRONG, ∀ b ∈ STRONG, [a, b] ∉ DIPHTHONGS := by
  decide

/-- C7: strong+strong hiatus never merges.  No pair of two strong vowels is in
the diphthong table; therefore a non-empty word whose lower-cased NFC form has
only strong vowels counts `max 1 V`, with `V` the number of vowels of that
form, and a non-empty word of Spanish letters all of whose vowels are strong
counts `max 1 V`, with `V` the number of vowels of the word.  Words of Spanish
letters are the words `countWord` is given: its only call, in `countText`,
passes a cleaned token. -/
theorem strong_hiatus (w : JSString) (h : w ≠ []) :
    (∀ a ∈ STRONG, ∀ b ∈ STRONG, [a, b] ∉ DIPHTHONGS)
      ∧ ((∀ c ∈ nfc (toLowerCase w), isVowel c = true → isStrong c = true) →
          countWord w = max 1 ((nfc (toLowerCase w)).filter isVowel).length)
      ∧ ((∀ c ∈ w, isSpanishLetter c = true) →
          (∀ c ∈ w, isVowel c = true → isStrong c = true) →
          countWord w = max 1 (w.filter isVowel).length)
      ∧ (∀ tok : JSString, ∀ c ∈ clean tok, isSpanishLetter c = true) := by
  have hg := countWord_eq_greedy w h
  refine ⟨strong_pairs_absent, ?_, ?_, clean_spanish⟩
  · intro hs
    rw [hg, greedy_all_strong _ hs]
  · intro hl hs
    rw [hg, normal_form_spanish w hl, greedy_all_strong, filter_isVowel_map_lower]
    intro c hc hv
    obtain ⟨a, ha, rfl⟩ := List.mem_map.1 hc
    rw [isVowel_lowerLetter] at hv
    rw [isStrong_lowerLetter]
    exact hs a ha hv

/-- C7 at "leer": two strong vowels, two syllables. -/
theorem strong_hiatus_witness :
    str "leer" ≠ [] ∧ str "ee" ∉ DIPHTHONGS ∧ countWord (str "leer") = 2 :=
  ⟨by decide, by decide,
    ((strong_hiatus (str "leer") (by decide)).2.2.1 (by decide) (by decide)).trans
      (by decide)⟩

/-! ## NFC and lower-casing -/

theorem nfc_cons_of_none (u : Nat) (X : JSString)
    (h : ∀ b ∈ X.head?, compose u b = none) : nfc (u :: X) = u :: nfc X := by
  cases X with
  | nil => rfl
  | cons v r =>
    have hv : compose u v = none := h v (by simp)
    rw [nfc, hv]

/-- NFC works piecewise across a boundary where nothing composes. -/
theorem nfc_append (P Y : JSString)
    (h : ∀ a ∈ P.getLast?, ∀ b ∈ Y.head?, compose a b = none) :
    nfc (P ++ Y) = nfc P ++ nfc Y := by
  induction P using nfc.induct with
  | case1 => rfl
  | case2 u =>
    have := nfc_cons_of_none u Y (fun b hb => h u (by simp) b hb)
    simpa [nfc] using this
  | case3 u v rest w hc ih =>
    have hrest : nfc (rest ++ Y) = nfc rest ++ nfc Y := by
      cases rest with
      | nil => rfl
      | cons x xs =>
        apply ih
        intro a ha b hb
        apply h a _ b hb
        simpa [List.getLast?_cons_cons] using ha
    rw [List.cons_append, List.cons_append, nfc, hc]
    simp only
    rw [hrest, nfc, hc]
    rfl
  | case4 u v rest hc ih =>
    have hrest : nfc (v :: rest ++ Y) = nfc (v :: rest) ++ nfc Y := by
      apply ih
      intro a ha b hb
      apply h a _ b hb
      simpa [List.getLast?_cons_cons] using ha
    rw [List.cons_append, List.cons_append, nfc, hc]
    simp only
    rw [← List.cons_append, hrest, nfc, hc]
    rfl
theorem toLowerCase_cons (u : Nat) (X : JSString) :
    toLowerCase (u :: X) = toLowerUnit u ++ toLowerCase X := rfl

theorem toLowerCase_append (X Y : JSString) :
    toLowerCase (X ++ Y) = toLowerCase X ++ toLowerCase Y := by
  unfold toLowerCase
  exact List.flatMap_append X Y toLowerUnit

theorem toLowerUnit_ne_nil (u : Nat) : toLowerUnit u ≠ [] := by
  unfold toLowerUnit
  split_ifs <;> simp

theorem compose_none_of_ge (u v : Nat) (h : 0x80 ≤ u) : compose u v = none := by
  cases hc : compose u v with
  | none => rfl
  | some r =>
    have := (compositions_mark _ (compose_mem u v r hc)).2.1
    simp only at this
    omega

theorem compositions_lower :
    ∀ e ∈ compositions, toLowerUnit e.1.1 = [lowerLetter e.1.1] ∧ toLowerUnit e.1.2 = [e.1.2]
      ∧ toLowerUnit e.2 = [lowerLetter e.2]
      ∧ compose (lowerLetter e.1.1) e.1.2 = some (lowerLetter e.2)
      ∧ 0x80 ≤ lowerLetter e.2 ∧ lowerLetter e.2 < 0x300
      ∧ e.1.2 ∈ [0x301, 0x303, 0x308] := by
  decide

set_option maxRecDepth 100000 in
theorem small_compose_lower :
    ∀ u < 256, ∀ m ∈ [0x301, 0x303, 0x308], compose u m = none →
      compose (lowerLetter u) m = none := by
  decide

/-- Lower-casing creates no new composition between neighbours. -/
theorem boundary_lower (u v : Nat) (hc : compose u v = none) :
    ∀ a ∈ (toLowerUnit u).getLast?, ∀ b ∈ (toLowerUnit v).head?, compose a b = none := by
  intro a ha b hb
  by_cases hb3 : b < 0x300
  · exact compose_none_of_lt a b hb3
  · have hv : v ≠ 0x130 := by
      intro hv
      rw [hv] at hb
      simp [toLowerUnit] at hb
      omega
    rw [toLowerUnit_eq v hv] at hb
    simp only [List.head?_cons, Option.mem_def, Option.some.injEq] at hb
    have hv2 : 256 ≤ v := by
      by_contra hlt
      have := (small_lowerLetter_class v (by omega)).2.2
      omega
    rw [lowerLetter_of_ge v hv2] at hb
    subst hb
    by_cases hu : u = 0x130
    · rw [hu] at ha
      simp [toLowerUnit] at ha
      exact compose_none_of_ge a v (by omega)
    · rw [toLowerUnit_eq u hu] at ha
      simp only [List.getLast?_singleton, Option.mem_def, Option.some.injEq] at ha
      subst ha
      by_cases hu2 : u < 256
      · cases hc2 : compose (lowerLetter u) v with
        | none => rfl
        | some r =>
          have hm := (compositions_lower _ (compose_mem _ _ _ hc2)).2.2.2.2.2.2
          have := small_compose_lower u hu2 v hm hc
          rw [this] at hc2
          exact Option.noConfusion hc2
      · rw [lowerLetter_of_ge u (by omega)]
        exact hc

theorem head_lower_nfc (v : Nat) (rest : JSString) :
    ∀ b ∈ (toLowerCase (nfc (v :: rest))).head?, b ∈ (toLowerUnit v).head? ∨ b < 0x300 := by
  intro b hb
  cases rest with
  | nil =>
    left
    simpa [nfc, toLowerCase] using hb
  | cons x xs =>
    cases hc : compose v x with
    | none =>
      left
      rw [nfc, hc] at hb
      simp only at hb
      rw [toLowerCase_cons, List.head?_append_of_ne_nil _ (toLowerUnit_ne_nil v)] at hb
      exact hb
    | some r =>
      right
      rw [nfc, hc] at hb
      simp only at hb
      have hl := compositions_lower _ (compose_mem _ _ _ hc)
      simp only at hl
      rw [toLowerCase_cons, hl.2.2.1] at hb
      simp only [List.singleton_append, List.head?_cons, Option.mem_def,
        Option.some.injEq] at hb
      have := hl.2.2.2.2.2.1
      omega

/-- Normalising first does not change the lower-cased NFC form: the model of
NFC commutes with lower-casing up to a final NFC. -/
theorem nfc_lower_nfc (w : JSString) :
    nfc (toLowerCase (nfc w)) = nfc (toLowerCase w) := by
  induction w using nfc.induct with
  | case1 => rfl
  | case2 u => rfl
  | case3 u v rest r hc ih =>
    have hl := compositions_lower _ (compose_mem _ _ _ hc)
    simp only at hl
    rw [nfc, hc]
    simp only
    rw [toLowerCase_cons, hl.2.2.1, List.singleton_append,
      nfc_cons_of_none _ _ (fun b _ => compose_none_of_ge _ b hl.2.2.2.2.1), ih,
      toLowerCase_cons, toLowerCase_cons, hl.1, hl.2.1, List.singleton_append,
      List.singleton_append, nfc, hl.2.2.2.1]
  | case4 u v rest hc ih =>
    rw [nfc, hc]
    simp only
    rw [toLowerCase_cons, toLowerCase_cons u]
    rw [nfc_append, nfc_append, ih]
    · intro a ha b hb
      rw [toLowerCase_cons, List.head?_append_of_ne_nil _ (toLowerUnit_ne_nil v)] at hb
      exact boundary_lower u v hc a ha b hb
    · intro a ha b hb
      rcases head_lower_nfc v rest b hb with h1 | h1
      · exact boundary_lower u v hc a ha b h1
      · exact compose_none_of_lt a b h1
/-! ## Claims on normalisation -/

/-- C8, evaluated at "día": written decomposed (`d`, `i`, U+0301, `a`), the
text normalises to the precomposed "día", yet `countText` strips U+0301 as a
non-letter before `countWord` normalises; the token becomes "dia", whose "ia"
is a diphthong, and the count is 1, while the precomposed text counts 2. -/
theorem countText_decomposed_differs :
    nfc [0x64, 0x69, 0x301, 0x61] = str "día"
      ∧ clean [0x64, 0x69, 0x301, 0x61] = str "dia"
      ∧ countText [0x64, 0x69, 0x301, 0x61] = 1
      ∧ countText (str "día") = 2 := by
  decide

theorem compositions_spanish : ∀ e ∈ compositions, isSpanishLetter e.2 = true := by
  decide

/-- NFC of a word written with Spanish letters, precomposed or decomposed, is
a word of Spanish letters. -/
theorem nfc_spanish (w : JSString) (hw : isDecomposedSpanish w = true) :
    ∀ c ∈ nfc w, isSpanishLetter c = true := by
  induction w using nfc.induct with
  | case1 =>
    intro c hc
    exact absurd hc (List.not_mem_nil c)
  | case2 u =>
    intro c hc
    rw [nfc, List.mem_singleton] at hc
    rw [hc]
    simpa [isDecomposedSpanish] using hw
  | case3 u v rest r hc ih =>
    have hrest : isDecomposedSpanish rest = true := by
      rw [isDecomposedSpanish, hc] at hw
      exact hw
    have hr : isSpanishLetter r = true := compositions_spanish _ (compose_mem u v r hc)
    intro c hmem
    rw [nfc, hc] at hmem
    rcases List.mem_cons.1 hmem with h1 | h1
    · rw [h1]
      exact hr
    · exact ih hrest c h1
  | case4 u v rest hc ih =>
    rw [isDecomposedSpanish, hc] at hw
    simp only [Bool.and_eq_true] at hw
    intro c hmem
    rw [nfc, hc] at hmem
    rcases List.mem_cons.1 hmem with h1 | h1
    · rw [h1]
      exact hw.1
    · exact ih hw.2 c h1

/-- C9: `countWord` treats a decomposed accented vowel like the precomposed
one.  For every word `w` written with Spanish letters, an accented letter being
precomposed or written as its base letter followed by the combining acute
accent, diaeresis or tilde, `countWord w = countWord (nfc w)`, and `nfc w` is
a word of Spanish letters, every accented letter precomposed. -/
theorem countWord_nfc_invariant (w : JSString) (hw : isDecomposedSpanish w = true) :
    countWord w = countWord (nfc w) ∧ (∀ c ∈ nfc w, isSpanishLetter c = true) := by
  refine ⟨?_, nfc_spanish w hw⟩
  by_cases h : w = []
  · rw [h]
    rfl
  · have hn : nfc w ≠ [] := fun hn => h ((nfc_eq_nil w).1 hn)
    rw [countWord_eq_greedy w h, countWord_eq_greedy (nfc w) hn, nfc_lower_nfc]

/-- C9 at "día" with `i` followed by U+0301 and at "güe" with `u` followed by
U+0308: both normalise to the precomposed words and get their counts. -/
theorem countWord_nfc_invariant_witness :
    (isDecomposedSpanish [0x64, 0x69, 0x301, 0x61] = true
        ∧ nfc [0x64, 0x69, 0x301, 0x61] = str "día"
        ∧ countWord [0x64, 0x69, 0x301, 0x61] = countWord (str "día"))
      ∧ (isDecomposedSpanish [0x67, 0x75, 0x308, 0x65] = true
        ∧ nfc [0x67, 0x75, 0x308, 0x65] = str "güe"
        ∧ countWord [0x67, 0x75, 0x308, 0x65] = countWord (str "güe")) :=
  ⟨⟨by decide, by decide,
      (countWord_nfc_invariant [0x64, 0x69, 0x301, 0x61] (by decide)).1.trans
        (congrArg countWord (by decide : nfc [0x64, 0x69, 0x301, 0x61] = str "día"))⟩,
    ⟨by decide, by decide,
      (countWord_nfc_invariant [0x67, 0x75, 0x308, 0x65] (by decide)).1.trans
        (congrArg countWord (by decide : nfc [0x67, 0x75, 0x308, 0x65] = str "güe"))⟩⟩

/-! ## Case of letters -/

set_option maxRecDepth 100000 in
theorem small_foldLetter_class :
    ∀ u < 256, isSpace (foldLetter u) = isSpace u
      ∧ isSpanishLetter (foldLetter u) = isSpanishLetter u
      ∧ lowerLetter (lowerLetter u) = lowerLetter u := by
  decide

set_option maxRecDepth 100000 in
theorem small_upper_lower :
    ∀ u < 256, isSpanishLetter u = true →
      toLowerCase (toUpperUnit u) = toLowerUnit u
        ∧ toLowerCase (toLowerUnit u) = toLowerUnit u
        ∧ toUpperUnit u ≠ [] := by
  decide

theorem foldLetter_of_ge (u : Nat) (h : 256 ≤ u) : foldLetter u = u := by
  unfold foldLetter
  have : ¬isSpanishLetter u = true := fun hs => by
    have := isSpanishLetter_lt u hs
    omega
  rw [if_neg this]

theorem isSpace_foldLetter (u : Nat) : isSpace (foldLetter u) = isSpace u := by
  by_cases h : u < 256
  · exact (small_foldLetter_class u h).1
  · rw [foldLetter_of_ge u (by omega)]

theorem isSpanishLetter_foldLetter (u : Nat) :
    isSpanishLetter (foldLetter u) = isSpanishLetter u := by
  by_cases h : u < 256
  · exact (small_foldLetter_class u h).2.1
  · rw [foldLetter_of_ge u (by omega)]

theorem lowerLetter_idem (u : Nat) : lowerLetter (lowerLetter u) = lowerLetter u := by
  by_cases h : u < 256
  · exact (small_foldLetter_class u h).2.2
  · rw [lowerLetter_of_ge u (by omega), lowerLetter_of_ge u (by omega)]

theorem sameLetter_fold (a b : Nat) (h : sameLetter a b) : foldLetter a = foldLetter b := by
  rcases h with h | ⟨ha, hb, hl⟩
  · rw [h]
  · unfold foldLetter
    rw [if_pos ha, if_pos hb, hl]

theorem forall₂_fold (t t' : JSString) (h : List.Forall₂ sameLetter t t') :
    t.map foldLetter = t'.map foldLetter := by
  induction h with
  | nil => rfl
  | cons hab _ ih => rw [List.map_cons, List.map_cons, sameLetter_fold _ _ hab, ih]

theorem dropWhile_map_fold (s : JSString) :
    (s.map foldLetter).dropWhile isSpace = (s.dropWhile isSpace).map foldLetter := by
  induction s with
  | nil => rfl
  | cons u rest ih =>
    rw [List.map_cons, List.dropWhile_cons, List.dropWhile_cons, isSpace_foldLetter]
    by_cases hu : isSpace u = true
    · rw [if_pos hu, if_pos hu, ih]
    · rw [if_neg hu, if_neg hu, List.map_cons]

theorem trim_map_fold (s : JSString) : trim (s.map foldLetter) = (trim s).map foldLetter := by
  unfold trim
  rw [dropWhile_map_fold, ← List.map_reverse, dropWhile_map_fold, List.map_reverse]

theorem splitWs_map_fold (s : JSString) :
    splitWs (s.map foldLetter) = (splitWs s).map (List.map foldLetter) := by
  induction s with
  | nil => rfl
  | cons u rest ih =>
    rw [List.map_cons]
    unfold splitWs
    rw [isSpace_foldLetter]
    by_cases hu : isSpace u = true
    · rw [if_pos hu, if_pos hu]
      cases rest with
      | nil => rfl
      | cons v r =>
        simp only [List.map_cons, isSpace_foldLetter]
        by_cases hv : isSpace v = true
        · rw [if_pos hv, if_pos hv]
          exact ih
        · rw [if_neg hv, if_neg hv, List.map_cons]
          rw [← List.map_cons foldLetter v r, ih]
          rfl
    · rw [if_neg hu, if_neg hu, ih]
      cases splitWs rest with
      | nil => rfl
      | cons tok toks => rfl

theorem clean_map_fold (w : JSString) : clean (w.map foldLetter) = (clean w).map foldLetter := by
  induction w with
  | nil => rfl
  | cons u rest ih =>
    unfold clean at ih ⊢
    rw [List.map_cons]
    by_cases hu : isSpanishLetter u = true
    · have hf : isSpanishLetter (foldLetter u) = true := by
        rw [isSpanishLetter_foldLetter]; exact hu
      rw [List.filter_cons_of_pos hf, List.filter_cons_of_pos hu, ih, List.map_cons]
    · have hf : ¬isSpanishLetter (foldLetter u) = true := by
        rw [isSpanishLetter_foldLetter]; exact hu
      rw [List.filter_cons_of_neg hf, List.filter_cons_of_neg hu, ih]

/-- Two words with the same emptiness and the same lower-case form count the
same. -/
theorem countWord_congr (a b : JSString) (hn : a = [] ↔ b = [])
    (hl : toLowerCase a = toLowerCase b) : countWord a = countWord b := by
  by_cases ha : a = []
  · rw [ha, hn.1 ha]
  · have hb : b ≠ [] := fun hb => ha (hn.2 hb)
    rw [countWord_eq_greedy a ha, countWord_eq_greedy b hb, hl]

theorem toLowerCase_map_fold (w : JSString) (h : ∀ c ∈ w, isSpanishLetter c = true) :
    toLowerCase (w.map foldLetter) = toLowerCase w := by
  have hm : w.map foldLetter = w.map lowerLetter := by
    apply List.map_congr_left
    intro c hc
    unfold foldLetter
    rw [if_pos (h c hc)]
  rw [hm, toLowerCase_eq_map w (fun c hc => isSpanishLetter_ne_dotted c (h c hc)),
    toLowerCase_eq_map]
  · rw [List.map_map]
    apply List.map_congr_left
    intro c _
    exact lowerLetter_idem c
  · intro c hc
    obtain ⟨a, ha, rfl⟩ := List.mem_map.1 hc
    have := (small_lowerLetter_class a (isSpanishLetter_lt a (h a ha))).2.2
    omega

theorem tokenSyllables_map_fold (tok : JSString) :
    tokenSyllables (tok.map foldLetter) = tokenSyllables tok := by
  unfold tokenSyllables
  rw [clean_map_fold]
  have hs : ∀ c ∈ clean tok, isSpanishLetter c = true := by
    intro c hc
    unfold clean at hc
    exact (List.mem_filter.1 hc).2
  have hw := countWord_congr ((clean tok).map foldLetter) (clean tok)
    (by simp) (toLowerCase_map_fold _ hs)
  by_cases hc : clean tok = []
  · rw [hc]
    rfl
  · have hc2 : (clean tok).map foldLetter ≠ [] := by simpa using hc
    rw [if_neg hc, if_neg hc2, hw]

/-- Lower-casing the Spanish letters of a text does not change its count. -/
theorem countText_map_fold (t : JSString) : countText (t.map foldLetter) = countText t := by
  rw [countText_eq_sum, countText_eq_sum, trim_map_fold, splitWs_map_fold, List.map_map]
  congr 1
  apply List.map_congr_left
  intro tok _
  exact tokenSyllables_map_fold tok

theorem toLowerCase_toUpperCase (w : JSString) (h : ∀ c ∈ w, isSpanishLetter c = true) :
    toLowerCase (toUpperCase w) = toLowerCase w ∧ (toUpperCase w = [] ↔ w = []) := by
  induction w with
  | nil => exact ⟨rfl, Iff.rfl⟩
  | cons u rest ih =>
    have hu := small_upper_lower u (isSpanishLetter_lt u (h u (List.mem_cons_self _ _)))
      (h u (List.mem_cons_self _ _))
    have hr := (ih (fun c hc => h c (List.mem_cons_of_mem _ hc))).1
    have hc : toUpperCase (u :: rest) = toUpperUnit u ++ toUpperCase rest := rfl
    constructor
    · rw [hc, toLowerCase_append, hu.1, hr]
      rfl
    · rw [hc]
      constructor
      · intro hnil
        exact absurd (List.append_eq_nil.1 hnil).1 hu.2.2
      · intro hnil
        exact absurd hnil (List.cons_ne_nil _ _)

theorem toLowerCase_idem (w : JSString) (h : ∀ c ∈ w, isSpanishLetter c = true) :
    toLowerCase (toLowerCase w) = toLowerCase w := by
  induction w with
  | nil => rfl
  | cons u rest ih =>
    have hu := small_upper_lower u (isSpanishLetter_lt u (h u (List.mem_cons_self _ _)))
      (h u (List.mem_cons_self _ _))
    rw [toLowerCase_cons, toLowerCase_append, hu.2.1,
      ih (fun c hc => h c (List.mem_cons_of_mem _ hc))]

/-! ## Claim on case -/

/-- C10: case insensitivity.  For every word `w` made of Spanish letters,
`countWord (toUpperCase w) = countWord (toLowerCase w) = countWord w`; and two
texts that differ only in the case of their Spanish letters have the same
`countText`. -/
theorem countWord_case_insensitive (w : JSString)
    (h : ∀ c ∈ w, isSpanishLetter c = true) :
    countWord (toUpperCase w) = countWord (toLowerCase w)
      ∧ countWord (toLowerCase w) = countWord w
      ∧ ∀ t t' : JSString, List.Forall₂ sameLetter t t' → countText t = countText t' := by
  have hup := toLowerCase_toUpperCase w h
  have hlow : toLowerCase w = [] ↔ w = [] := by
    cases w with
    | nil => exact ⟨fun _ => rfl, fun _ => rfl⟩
    | cons u rest =>
      constructor
      · intro hnil
        rw [toLowerCase_cons] at hnil
        exact absurd (List.append_eq_nil.1 hnil).1 (toLowerUnit_ne_nil u)
      · intro hnil
        exact absurd hnil (List.cons_ne_nil _ _)
  have h2 : countWord (toLowerCase w) = countWord w :=
    countWord_congr _ _ hlow (toLowerCase_idem w h)
  have h1 : countWord (toUpperCase w) = countWord w :=
    countWord_congr _ _ hup.2 hup.1
  refine ⟨h1.trans h2.symm, h2, ?_⟩
  intro t t' ht
  rw [← countText_map_fold t, ← countText_map_fold t', forall₂_fold t t' ht]

/-- C10 at "árbol": the capital word "ÁRBOL" is its upper-case form and both
count the same; so do the texts "SÍ" and "sí". -/
theorem countWord_case_insensitive_witness :
    (∀ c ∈ str "árbol", isSpanishLetter c = true)
      ∧ toUpperCase (str "árbol") = str "ÁRBOL"
      ∧ countWord (str "ÁRBOL") = countWord (str "árbol")
      ∧ countText [0x53, 0xCD] = countText [0x73, 0xED] :=
  ⟨by decide, by decide,
    (congrArg countWord (by decide : str "ÁRBOL" = toUpperCase (str "árbol"))).trans
      (((countWord_case_insensitive (str "árbol") (by decide)).1).trans
        (countWord_case_insensitive (str "árbol") (by decide)).2.1),
    (countWord_case_insensitive (str "árbol") (by decide)).2.2 [0x53, 0xCD] [0x73, 0xED]
      (List.Forall₂.cons (by decide) (List.Forall₂.cons (by decide) List.Forall₂.nil))⟩

/-! ## Runs between separators -/

theorem sumRuns_splitOnP (sep : Nat → Bool) (f : JSString → Nat) (x : JSString) :
    ∃ h t, x.splitOnP sep = h :: t
      ∧ ∀ cur, sumRuns sep f cur x = f (cur ++ h) + (t.map f).sum := by
  induction x with
  | nil =>
    refine ⟨[], [], List.splitOnP_nil sep, ?_⟩
    intro cur
    simp [sumRuns]
  | cons u rest ih =>
    obtain ⟨h, t, hsplit, hsum⟩ := ih
    by_cases hu : sep u = true
    · refine ⟨[], h :: t, ?_, ?_⟩
      · rw [List.splitOnP_cons, if_pos hu, hsplit]
      · intro cur
        rw [sumRuns, if_pos hu, hsum []]
        simp
    · refine ⟨u :: h, t, ?_, ?_⟩
      · rw [List.splitOnP_cons, if_neg hu, hsplit]
        rfl
      · intro cur
        rw [sumRuns, if_neg hu, hsum (cur ++ [u])]
        simp

theorem sum_map_splitOnP (sep : Nat → Bool) (f : JSString → Nat) (x : JSString) :
    ((x.splitOnP sep).map f).sum = sumRuns sep f [] x := by
  obtain ⟨h, t, hsplit, hsum⟩ := sumRuns_splitOnP sep f x
  rw [hsplit, hsum []]
  simp

theorem sum_map_filter_ne_nil (f : JSString → Nat) (hf : f [] = 0) (l : List JSString) :
    ((l.filter (fun run => decide (run ≠ []))).map f).sum = (l.map f).sum := by
  induction l with
  | nil => rfl
  | cons a l ih =>
    by_cases ha : a = []
    · subst ha
      rw [List.filter_cons_of_neg (by simp), ih, List.map_cons, List.sum_cons, hf,
        Nat.zero_add]
    · rw [List.filter_cons_of_pos (by simpa using ha), List.map_cons, List.sum_cons, ih,
        List.map_cons, List.sum_cons]

/-- The sum of `f` over the maximal runs is the one-pass sum. -/
theorem sum_maximalRuns (sep : Nat → Bool) (f : JSString → Nat) (hf : f [] = 0)
    (x : JSString) : ((maximalRuns sep x).map f).sum = sumRuns sep f [] x := by
  unfold maximalRuns
  rw [sum_map_filter_ne_nil f hf, sum_map_splitOnP]

theorem splitWs_spec (f : JSString → Nat) (hf : f [] = 0) (x : JSString) :
    ∃ h t, splitWs x = h :: t
      ∧ (∀ cur, sumRuns isSpace f cur x = f (cur ++ h) + (t.map f).sum)
      ∧ (∀ v r, x = v :: r → isSpace v = true → h = []) := by
  induction x with
  | nil =>
    refine ⟨[], [], rfl, ?_, ?_⟩
    · intro cur
      simp [sumRuns]
    · intro v r hx
      exact List.noConfusion hx
  | cons u rest ih =>
    obtain ⟨h, t, hsplit, hsum, hhead⟩ := ih
    by_cases hu : isSpace u = true
    · cases rest with
      | nil =>
        refine ⟨[], [[]], ?_, ?_, ?_⟩
        · simp [splitWs, hu]
        · intro cur
          simp [sumRuns, hu, hf]
        · intro _ _ _ _
          rfl
      | cons v r =>
        by_cases hv : isSpace v = true
        · have hnil : h = [] := hhead v r rfl hv
          refine ⟨h, t, ?_, ?_, ?_⟩
          · rw [splitWs, if_pos hu]
            simp only [hv, if_true]
            exact hsplit
          · intro cur
            rw [sumRuns, if_pos hu, hsum [], hnil]
            simp [hf]
          · intro _ _ _ _
            exact hnil
        · refine ⟨[], h :: t, ?_, ?_, ?_⟩
          · rw [splitWs, if_pos hu]
            simp only [hv, if_false, Bool.false_eq_true]
            rw [hsplit]
          · intro cur
            rw [sumRuns, if_pos hu, hsum []]
            simp
          · intro _ _ _ _
            rfl
    · refine ⟨u :: h, t, ?_, ?_, ?_⟩
      · unfold splitWs
        rw [if_neg hu, hsplit]
      · intro cur
        rw [sumRuns, if_neg hu, hsum (cur ++ [u])]
        simp
      · intro v r hx hv
        injection hx with h1 h2
        rw [h1] at hu
        exact absurd hv hu

theorem sum_map_splitWs (f : JSString → Nat) (hf : f [] = 0) (x : JSString) :
    ((splitWs x).map f).sum = sumRuns isSpace f [] x := by
  obtain ⟨h, t, hsplit, hsum, _⟩ := splitWs_spec f hf x
  rw [hsplit, hsum []]
  simp

theorem sumRuns_cons_sep (sep : Nat → Bool) (f : JSString → Nat) (hf : f [] = 0)
    (u : Nat) (hu : sep u = true) (x : JSString) :
    sumRuns sep f [] (u :: x) = sumRuns sep f [] x := by
  rw [sumRuns, if_pos hu, hf, Nat.zero_add]

theorem sumRuns_seps_append (sep : Nat → Bool) (f : JSString → Nat) (hf : f [] = 0)
    (s x : JSString) (hs : ∀ u ∈ s, sep u = true) :
    sumRuns sep f [] (s ++ x) = sumRuns sep f [] x := by
  induction s with
  | nil => rfl
  | cons u s ih =>
    rw [List.cons_append, sumRuns_cons_sep sep f hf u (hs u (List.mem_cons_self _ _)),
      ih (fun v hv => hs v (List.mem_cons_of_mem _ hv))]

theorem sumRuns_dropWhile (sep : Nat → Bool) (f : JSString → Nat) (hf : f [] = 0)
    (x : JSString) : sumRuns sep f [] (x.dropWhile sep) = sumRuns sep f [] x := by
  induction x with
  | nil => rfl
  | cons u rest ih =>
    rw [List.dropWhile_cons]
    by_cases hu : sep u = true
    · rw [if_pos hu, ih, sumRuns_cons_sep sep f hf u hu]
    · rw [if_neg hu]

/-- A separator closes the run being read: what comes after is summed on its
own. -/
theorem sumRuns_append_sep (sep : Nat → Bool) (f : JSString → Nat) (u : Nat)
    (hu : sep u = true) (y : JSString) :
    ∀ (x cur : JSString),
      sumRuns sep f cur (x ++ u :: y) = sumRuns sep f cur x + sumRuns sep f [] y := by
  intro x
  induction x with
  | nil =>
    intro cur
    simp only [List.nil_append, sumRuns, hu, if_true]
  | cons c x ih =>
    intro cur
    by_cases hc : sep c = true
    · rw [List.cons_append]
      simp only [sumRuns, hc, if_true]
      rw [ih [], Nat.add_assoc]
    · rw [List.cons_append]
      simp only [sumRuns, hc, if_false, Bool.false_eq_true]
      exact ih (cur ++ [c])

theorem sumRuns_rdrop (sep : Nat → Bool) (f : JSString → Nat) (hf : f [] = 0)
    (x : JSString) :
    sumRuns sep f [] (x.reverse.dropWhile sep).reverse = sumRuns sep f [] x := by
  induction x using List.reverseRecOn with
  | nil => rfl
  | append_singleton l a ih =>
    rw [List.reverse_append, List.reverse_singleton, List.singleton_append,
      List.dropWhile_cons]
    by_cases ha : sep a = true
    · rw [if_pos ha, ih, sumRuns_append_sep sep f a ha [] l [], sumRuns, hf, Nat.add_zero]
    · rw [if_neg ha, List.reverse_cons, List.reverse_reverse]

theorem sumRuns_trim (f : JSString → Nat) (hf : f [] = 0) (x : JSString) :
    sumRuns isSpace f [] (trim x) = sumRuns isSpace f [] x := by
  unfold trim
  rw [sumRuns_rdrop isSpace f hf, sumRuns_dropWhile isSpace f hf]

/-- `countText` is the one-pass sum of the token counts over the text, trimmed
or not. -/
theorem countText_eq_sumRuns (text : JSString) :
    countText text = sumRuns isSpace tokenSyllables [] text := by
  rw [countText_eq_sum, sum_map_splitWs tokenSyllables rfl, sumRuns_trim tokenSyllables rfl]

/-! ## Claims on words and tokens of a text -/

theorem length_filter_eq_sum (p : JSString → Bool) (l : List JSString) :
    (l.filter p).length = (l.map (fun w => if p w = true then 1 else 0)).sum := by
  induction l with
  | nil => rfl
  | cons a l ih =>
    by_cases ha : p a = true
    · rw [List.filter_cons_of_pos ha, List.length_cons, ih, List.map_cons, List.sum_cons,
        if_pos ha, Nat.add_comm]
    · rw [List.filter_cons_of_neg ha, ih, List.map_cons, List.sum_cons, if_neg ha,
        Nat.zero_add]

theorem countWords_eq_sumRuns (text : JSString) :
    countWords text
      = sumRuns isSpace (fun w => if decide (w.length > 0) = true then 1 else 0) [] text := by
  have hf : (fun w : JSString => if decide (w.length > 0) = true then 1 else 0) [] = 0 := rfl
  rw [← sumRuns_trim _ hf text, ← sum_map_splitWs _ hf, ← length_filter_eq_sum]
  unfold countWords
  by_cases h : text = [] ∨ trim text = []
  · have ht : trim text = [] := by
      rcases h with h | h
      · rw [h]; rfl
      · exact h
    rw [if_pos h, ht]
    rfl
  · rw [if_neg h]

/-- C11: `countWords` counts the maximal runs of non-white-space characters,
with no stripping.  For every text it is the number of maximal non-empty runs
of characters that are not white space, 0 for the empty string and for
white-space-only text; a token of punctuation or digits counts as one word, and
"Hola, mundo!" has 2 words. -/
theorem countWords_counts_runs :
    (∀ text : JSString, countWords text = (maximalRuns isSpace text).length)
      ∧ countWords (str "") = 0 ∧ countWords (str " \n\t ") = 0
      ∧ countWords (str "Hola, mundo!") = 2 ∧ countWords (str "... 123 ¡!") = 3 := by
  refine ⟨?_, by decide, by decide, by decide, by decide⟩
  intro text
  have hf : (fun w : JSString => if decide (w.length > 0) = true then 1 else 0) [] = 0 := rfl
  have hg : (fun w : JSString => if decide (w ≠ []) = true then 1 else 0)
      = (fun w : JSString => if decide (w.length > 0) = true then 1 else 0) := by
    funext w
    cases w with
    | nil => rfl
    | cons c r => simp
  rw [countWords_eq_sumRuns, ← sum_map_splitOnP]
  unfold maximalRuns
  rw [length_filter_eq_sum, hg]

theorem tokenSyllables_congr (a b : JSString) (h : clean a = clean b) :
    tokenSyllables a = tokenSyllables b := by
  unfold tokenSyllables
  rw [h]

theorem clean_append_singleton (cur : JSString) (u : Nat) :
    clean (cur ++ [u]) = if isSpanishLetter u = true then clean cur ++ [u] else clean cur := by
  unfold clean
  rw [List.filter_append]
  by_cases hu : isSpanishLetter u = true
  · rw [if_pos hu, List.filter_cons_of_pos hu]
    rfl
  · rw [if_neg hu, List.filter_cons_of_neg hu]
    simp

theorem sumRuns_lettersAndSpaces (x : JSString) :
    ∀ cur cur' : JSString, clean cur = clean cur' →
      sumRuns isSpace tokenSyllables cur (lettersAndSpaces x)
        = sumRuns isSpace tokenSyllables cur' x := by
  induction x with
  | nil =>
    intro cur cur' h
    exact tokenSyllables_congr cur cur' h
  | cons u rest ih =>
    intro cur cur' h
    unfold lettersAndSpaces at ih ⊢
    by_cases hs : isSpace u = true
    · rw [List.filter_cons_of_pos (by simp [hs])]
      simp only [sumRuns, hs, if_true]
      rw [ih [] [] rfl, tokenSyllables_congr cur cur' h]
    · by_cases hl : isSpanishLetter u = true
      · rw [List.filter_cons_of_pos (by simp [hl])]
        simp only [sumRuns, hs, if_false, Bool.false_eq_true]
        apply ih
        rw [clean_append_singleton, clean_append_singleton, h]
      · rw [List.filter_cons_of_neg (by simp [hs, hl])]
        simp only [sumRuns, hs, if_false, Bool.false_eq_true]
        apply ih
        rw [clean_append_singleton, if_neg hl, h]

/-- C12: characters that are neither letters nor white space do not change
the syllable count.  For every text, `countText` of the text equals `countText`
of the text with every character removed that is neither white space nor a
Spanish letter. -/
theorem countText_ignores_non_letters :
    (∀ text : JSString, countText text = countText (lettersAndSpaces text))
      ∧ lettersAndSpaces (str "¡Hola, mundo 2 veces!") = str "Hola mundo  veces"
      ∧ countText (str "¡Hola, mundo 2 veces!") = 6 := by
  refine ⟨?_, by decide, by decide⟩
  intro text
  rw [countText_eq_sumRuns, countText_eq_sumRuns, sumRuns_lettersAndSpaces text [] [] rfl]

/-- C13: per-word independence.  For all texts `a` and `b` and every non-empty
run `s` of white space, `countText (a ++ s ++ b) = countText a + countText b`:
nothing is merged across a word boundary. -/
theorem countText_independent_words (a s b : JSString) (hs : s ≠ [])
    (hws : ∀ u ∈ s, isSpace u = true) :
    countText (a ++ s ++ b) = countText a + countText b := by
  cases s with
  | nil => exact absurd rfl hs
  | cons u s' =>
    have hu : isSpace u = true := hws u (List.mem_cons_self _ _)
    rw [countText_eq_sumRuns, countText_eq_sumRuns, countText_eq_sumRuns, List.append_assoc,
      List.cons_append, sumRuns_append_sep isSpace tokenSyllables u hu (s' ++ b) a [],
      sumRuns_seps_append isSpace tokenSyllables rfl s' b
        (fun v hv => hws v (List.mem_cons_of_mem _ hv))]

/-- C13 at "la" and "alma": the final `a` and the initial `a` are not merged,
the text counts 1 + 2. -/
theorem countText_independent_words_witness :
    str " \n" ≠ [] ∧ (∀ u ∈ str " \n", isSpace u = true)
      ∧ countText (str "la" ++ str " \n" ++ str "alma") = countText (str "la") + countText (str "alma")
      ∧ countText (str "la") = 1 ∧ countText (str "alma") = 2 :=
  ⟨by decide, by decide,
    countText_independent_words (str "la") (str " \n") (str "alma") (by decide) (by decide),
    by decide, by decide⟩

/-! ## The scan: consonants, bounds, extension -/

theorem greedy_singleton (a : Nat) : greedy [a] = if isVowel a = true then 1 else 0 := by
  rw [greedy]

theorem greedy_cons_cons (a d : Nat) (r : JSString) :
    greedy (a :: d :: r) =
      if isVowel a = true then
        if isVowel d = true ∧ [a, d] ∈ DIPHTHONGS then 1 + greedy r else 1 + greedy (d :: r)
      else greedy (d :: r) := by
  rw [greedy]

/-- Induction two letters at a time, the way the scan reads a word. -/
theorem two_step_induction {motive : JSString → Prop} (nil : motive [])
    (single : ∀ a, motive [a])
    (step : ∀ a d r, motive r → motive (d :: r) → motive (a :: d :: r)) :
    ∀ w, motive w := by
  have key : ∀ w : JSString, motive w ∧ ∀ a, motive (a :: w) := by
    intro w
    induction w with
    | nil => exact ⟨nil, single⟩
    | cons d r ih => exact ⟨ih.2 d, fun a => step a d r ih.1 (ih.2 d)⟩
  exact fun w => (key w).1

theorem greedy_cons_consonant (c : Nat) (B : JSString) (hc : isVowel c = false) :
    greedy (c :: B) = greedy B := by
  have hc2 : ¬isVowel c = true := by simp [hc]
  cases B with
  | nil => rw [greedy_singleton, if_neg hc2]; rfl
  | cons d r => rw [greedy_cons_cons, if_neg hc2]

/-- A consonant cuts the scan in two independent scans. -/
theorem greedy_append_consonant (c : Nat) (B : JSString) (hc : isVowel c = false) :
    ∀ A : JSString, greedy (A ++ c :: B) = greedy A + greedy B := by
  have hc2 : ¬isVowel c = true := by simp [hc]
  intro A
  induction A using two_step_induction with
  | nil =>
    rw [List.nil_append, greedy_cons_consonant c B hc]
    show greedy B = 0 + greedy B
    omega
  | single a =>
    rw [List.singleton_append, greedy_cons_cons, greedy_singleton,
      greedy_cons_consonant c B hc]
    by_cases ha : isVowel a = true
    · rw [if_pos ha, if_pos ha, if_neg (fun h => hc2 h.1)]
    · rw [if_neg ha, if_neg ha, Nat.zero_add]
  | step a d r ih1 ih2 =>
    rw [List.cons_append, List.cons_append, greedy_cons_cons, greedy_cons_cons a d r,
      ← List.cons_append, ih1, ih2]
    by_cases ha : isVowel a = true
    · by_cases hp : isVowel d = true ∧ [a, d] ∈ DIPHTHONGS
      · rw [if_pos ha, if_pos ha, if_pos hp, if_pos hp]
        omega
      · rw [if_pos ha, if_pos ha, if_neg hp, if_neg hp]
        omega
    · rw [if_neg ha, if_neg ha]

/-- Every counted syllable holds one or two vowels. -/
theorem greedy_bounds (w : JSString) :
    greedy w ≤ vowelCount w ∧ vowelCount w ≤ 2 * greedy w := by
  unfold vowelCount
  induction w using two_step_induction with
  | nil => exact ⟨Nat.le_refl _, Nat.le_refl _⟩
  | single a =>
    rw [greedy_singleton]
    by_cases ha : isVowel a = true
    · rw [if_pos ha, List.filter_cons_of_pos ha]
      simp
    · rw [if_neg ha, List.filter_cons_of_neg ha]
      simp
  | step a d r ih1 ih2 =>
    rw [greedy_cons_cons]
    by_cases ha : isVowel a = true
    · rw [if_pos ha, List.filter_cons_of_pos ha, List.length_cons]
      by_cases hp : isVowel d = true ∧ [a, d] ∈ DIPHTHONGS
      · rw [if_pos hp, List.filter_cons_of_pos hp.1, List.length_cons]
        omega
      · rw [if_neg hp]
        omega
    · rw [if_neg ha, List.filter_cons_of_neg ha]
      exact ih2

/-- Putting a letter in front moves the scan by 0 or 1. -/
theorem greedy_cons_bounds (r : JSString) :
    ∀ d : Nat, greedy r ≤ greedy (d :: r) ∧ greedy (d :: r) ≤ greedy r + 1 := by
  induction r with
  | nil =>
    intro d
    rw [greedy_singleton]
    by_cases hd : isVowel d = true
    · rw [if_pos hd]
      exact ⟨Nat.zero_le _, Nat.le_refl _⟩
    · rw [if_neg hd]
      exact ⟨Nat.le_refl _, Nat.zero_le _⟩
  | cons e r ih =>
    intro d
    have he := ih e
    rw [greedy_cons_cons]
    by_cases hd : isVowel d = true
    · by_cases hp : isVowel e = true ∧ [d, e] ∈ DIPHTHONGS
      · rw [if_pos hd, if_pos hp]
        omega
      · rw [if_pos hd, if_neg hp]
        omega
    · rw [if_neg hd]
      omega

/-- Putting a letter at the end moves the scan by 0 or 1. -/
theorem greedy_append_bounds (c : Nat) :
    ∀ w : JSString, greedy w ≤ greedy (w ++ [c]) ∧ greedy (w ++ [c]) ≤ greedy w + 1 := by
  have hnil : greedy [] = 0 := rfl
  intro w
  induction w using two_step_induction with
  | nil =>
    rw [List.nil_append, greedy_singleton, hnil]
    by_cases hc : isVowel c = true
    · simp only [if_pos hc]
      exact ⟨Nat.zero_le _, Nat.le_refl _⟩
    · simp only [if_neg hc]
      exact ⟨Nat.le_refl _, Nat.zero_le _⟩
  | single a =>
    rw [List.singleton_append, greedy_cons_cons a c [], greedy_singleton a, greedy_singleton c,
      hnil]
    by_cases ha : isVowel a = true
    · by_cases hp : isVowel c = true ∧ [a, c] ∈ DIPHTHONGS
      · simp only [if_pos ha, if_pos hp]
        omega
      · simp only [if_pos ha, if_neg hp]
        by_cases hc : isVowel c = true
        · simp only [if_pos hc]
          omega
        · simp only [if_neg hc]
          omega
    · simp only [if_neg ha]
      by_cases hc : isVowel c = true
      · simp only [if_pos hc]
        omega
      · simp only [if_neg hc]
        omega
  | step a d r ih1 ih2 =>
    rw [List.cons_append, List.cons_append, greedy_cons_cons a d (r ++ [c]),
      greedy_cons_cons a d r, ← List.cons_append]
    by_cases ha : isVowel a = true
    · by_cases hp : isVowel d = true ∧ [a, d] ∈ DIPHTHONGS
      · simp only [if_pos ha, if_pos hp]
        omega
      · simp only [if_pos ha, if_neg hp]
        omega
    · simp only [if_neg ha]
      exact ih2

/-! ## Words of Spanish letters -/

theorem VOWELS_eq :
    VOWELS = [0x61, 0x65, 0x69, 0x6F, 0x75, 0xE1, 0xE9, 0xED, 0xF3, 0xFA, 0xFC,
      0x41, 0x45, 0x49, 0x4F, 0x55, 0xC1, 0xC9, 0xCD, 0xD3, 0xDA, 0xDC] := by
  decide

theorem isVowel_lt (u : Nat) (h : isVowel u = true) : u < 256 := by
  unfold isVowel at h
  rw [VOWELS_eq] at h
  simp only [decide_eq_true_eq, List.mem_cons, List.mem_singleton, List.not_mem_nil,
    or_false] at h
  omega

set_option maxRecDepth 100000 in
theorem small_vowel_letter : ∀ u < 256, isVowel u = true → isSpanishLetter u = true := by
  decide

/-- Every vowel is a Spanish letter. -/
theorem isVowel_spanish (u : Nat) (h : isVowel u = true) : isSpanishLetter u = true :=
  small_vowel_letter u (isVowel_lt u h) h

/-- On Spanish letters `countWord` is the clamped scan of the lower-cased
letters. -/
theorem countWord_spanish (w : JSString) (hl : ∀ c ∈ w, isSpanishLetter c = true) :
    countWord w = if w = [] then 0 else max 1 (greedy (w.map lowerLetter)) := by
  by_cases h : w = []
  · rw [if_pos h, h]
    rfl
  · rw [if_neg h, countWord_eq_greedy w h, normal_form_spanish w hl]

theorem vowelCount_map_lower (w : JSString) :
    vowelCount (w.map lowerLetter) = vowelCount w :=
  filter_isVowel_map_lower w

/-- A run of vowels counts what the scan counts: the clamp plays no part. -/
theorem countWord_vowels (cur : JSString) (h : ∀ c ∈ cur, isVowel c = true) :
    countWord cur = greedy (cur.map lowerLetter) := by
  rw [countWord_spanish cur (fun c hc => isVowel_spanish c (h c hc))]
  cases cur with
  | nil => rfl
  | cons a r =>
    rw [if_neg (List.cons_ne_nil _ _)]
    have hb := (greedy_bounds ((a :: r).map lowerLetter)).2
    rw [vowelCount_map_lower] at hb
    have hv : 1 ≤ vowelCount (a :: r) := by
      unfold vowelCount
      rw [List.filter_cons_of_pos (h a (List.mem_cons_self _ _)), List.length_cons]
      omega
    omega

theorem sumRuns_vowel_runs (x : JSString) :
    ∀ cur : JSString, (∀ c ∈ cur, isVowel c = true) →
      (∀ c ∈ x, isSpanishLetter c = true) →
      sumRuns (fun c => !isVowel c) countWord cur x = greedy ((cur ++ x).map lowerLetter) := by
  induction x with
  | nil =>
    intro cur hcur _
    rw [List.append_nil]
    exact countWord_vowels cur hcur
  | cons u rest ih =>
    intro cur hcur hx
    have hrest : ∀ c ∈ rest, isSpanishLetter c = true :=
      fun c hc => hx c (List.mem_cons_of_mem _ hc)
    by_cases hu : isVowel u = true
    · have hsep : ¬((fun c => !isVowel c) u = true) := by simp [hu]
      rw [sumRuns, if_neg hsep, ih (cur ++ [u]) _ hrest, List.append_assoc]
      · rfl
      · intro c hc
        rcases List.mem_append.1 hc with h1 | h1
        · exact hcur c h1
        · rw [List.mem_singleton.1 h1]
          exact hu
    · have hsep : (fun c => !isVowel c) u = true := by simp [hu]
      have hlow : isVowel (lowerLetter u) = false := by
        rw [isVowel_lowerLetter]
        simpa using hu
      rw [sumRuns, if_pos hsep, ih [] (fun c hc => absurd hc (List.not_mem_nil c)) hrest,
        countWord_vowels cur hcur, List.nil_append, List.map_append, List.map_cons,
        greedy_append_consonant (lowerLetter u) (rest.map lowerLetter) hlow]

/-! ## Claims on the scan -/

/-- C14: consonants, `y` and `Y` included, only separate the groups of vowels
and add nothing.  For every non-empty word of Spanish letters, `countWord` is
`max 1` of the sum of `countWord` over the maximal runs of consecutive vowels
of the word. -/
theorem consonants_only_separate (w : JSString) (hne : w ≠ [])
    (hl : ∀ c ∈ w, isSpanishLetter c = true) :
    countWord w = max 1 ((maximalRuns (fun c => !isVowel c) w).map countWord).sum := by
  rw [sum_maximalRuns (fun c => !isVowel c) countWord rfl,
    sumRuns_vowel_runs w [] (fun c hc => absurd hc (List.not_mem_nil c)) hl,
    countWord_spanish w hl, if_neg hne]
  rfl

/-- C14 at "rey", "hoy" and "y": `y` and `Y` are no vowels, the only run of
vowels of "rey" is "e", and the three words count 1. -/
theorem consonants_only_separate_witness :
    (str "rey" ≠ [] ∧ (∀ c ∈ str "rey", isSpanishLetter c = true))
      ∧ isVowel 0x79 = false ∧ isVowel 0x59 = false
      ∧ maximalRuns (fun c => !isVowel c) (str "rey") = [str "e"]
      ∧ countWord (str "rey") = 1 ∧ countWord (str "hoy") = 1 ∧ countWord (str "y") = 1 :=
  ⟨⟨by decide, by decide⟩, by decide, by decide, by decide,
    (consonants_only_separate (str "rey") (by decide) (by decide)).trans (by decide),
    (consonants_only_separate (str "hoy") (by decide) (by decide)).trans (by decide),
    (consonants_only_separate (str "y") (by decide) (by decide)).trans (by decide)⟩

/-- C15, as stated, fails at "uai" and "iei": both pairs of each word are in
the diphthong table, so the claim announces `max 1 (3 - 2) = 1`, yet the scan
skips the second vowel after the first pair and counts the third vowel alone:
the count is 2. -/
theorem three_vowels_counterexample :
    (∀ c ∈ str "uai", isVowel c = true)
      ∧ str "ua" ∈ DIPHTHONGS ∧ str "ai" ∈ DIPHTHONGS ∧ countWord (str "uai") = 2
      ∧ str "ie" ∈ DIPHTHONGS ∧ str "ei" ∈ DIPHTHONGS ∧ countWord (str "iei") = 2
      ∧ max 1 (3 - 2) = 1 := by
  decide

/-- C15, amended: in a word of three vowels the pair `(v1, v2)` is tested; the
pair `(v2, v3)` is tested only when `(v1, v2)` is not in the diphthong table,
since otherwise the loop moves from index 0 to index 2 and reads the third
vowel alone.  Hence `countWord` is `3 - min 1 d`, with `d` the number of the
two pairs (lower-cased) that are in the table: 3 when neither is, 2 otherwise. -/
theorem three_vowels (v1 v2 v3 : Nat) (h1 : isVowel v1 = true) (h2 : isVowel v2 = true)
    (h3 : isVowel v3 = true) :
    countWord [v1, v2, v3]
        = 3 - min 1 ((if [lowerLetter v1, lowerLetter v2] ∈ DIPHTHONGS then 1 else 0)
            + (if [lowerLetter v2, lowerLetter v3] ∈ DIPHTHONGS then 1 else 0))
      ∧ ([lowerLetter v1, lowerLetter v2] ∈ DIPHTHONGS →
          (loopBody [lowerLetter v1, lowerLetter v2, lowerLetter v3] ⟨0, 0⟩
              (Nat.zero_lt_succ 2)).i = 2
            ∧ bodyReads [lowerLetter v1, lowerLetter v2, lowerLetter v3] 2 = [2])
      ∧ ([lowerLetter v1, lowerLetter v2] ∉ DIPHTHONGS →
          (loopBody [lowerLetter v1, lowerLetter v2, lowerLetter v3] ⟨0, 0⟩
              (Nat.zero_lt_succ 2)).i = 1
            ∧ bodyReads [lowerLetter v1, lowerLetter v2, lowerLetter v3] 1 = [1, 2, 1, 2]) := by
  have l1 : isVowel (lowerLetter v1) = true := by rw [isVowel_lowerLetter]; exact h1
  have l2 : isVowel (lowerLetter v2) = true := by rw [isVowel_lowerLetter]; exact h2
  have l3 : isVowel (lowerLetter v3) = true := by rw [isVowel_lowerLetter]; exact h3
  have hl : ∀ c ∈ [v1, v2, v3], isSpanishLetter c = true := by
    intro c hc
    simp only [List.mem_cons, List.mem_singleton, List.not_mem_nil, or_false] at hc
    rcases hc with rfl | rfl | rfl
    · exact isVowel_spanish _ h1
    · exact isVowel_spanish _ h2
    · exact isVowel_spanish _ h3
  refine ⟨?_, ?_, ?_⟩
  · rw [countWord_spanish _ hl, if_neg (List.cons_ne_nil _ _)]
    simp only [List.map_cons, List.map_nil]
    rw [greedy_cons_cons, greedy_cons_cons, greedy_singleton]
    simp only [l1, l2, l3, if_true, true_and]
    by_cases hp : [lowerLetter v1, lowerLetter v2] ∈ DIPHTHONGS
    · by_cases hq : [lowerLetter v2, lowerLetter v3] ∈ DIPHTHONGS
      · simp only [hp, hq, if_true]
        decide
      · simp only [hp, hq, if_true, if_false]
        decide
    · by_cases hq : [lowerLetter v2, lowerLetter v3] ∈ DIPHTHONGS
      · simp only [hp, hq, if_true, if_false]
        decide
      · simp only [hp, hq, if_false]
        decide
  · intro hp
    constructor
    · simp [loopBody, l1, l2, hp]
    · simp [bodyReads, l3]
  · intro hp
    constructor
    · simp [loopBody, l1, l2, hp]
    · simp [bodyReads, l2, l3]

/-- C15 (amended) at "uai", "iei" and "aeo": 2, 2 and 3 syllables. -/
theorem three_vowels_witness :
    (isVowel 0x75 = true ∧ isVowel 0x61 = true ∧ isVowel 0x69 = true)
      ∧ countWord (str "uai") = 2 ∧ countWord (str "iei") = 2 ∧ countWord (str "aeo") = 3 :=
  ⟨⟨by decide, by decide, by decide⟩,
    ((three_vowels 0x75 0x61 0x69 (by decide) (by decide) (by decide)).1).trans (by decide),
    ((three_vowels 0x69 0x65 0x69 (by decide) (by decide) (by decide)).1).trans (by decide),
    ((three_vowels 0x61 0x65 0x6F (by decide) (by decide) (by decide)).1).trans (by decide)⟩

/-- C17: bounds by the number of vowels.  For every word whose lower-cased
NFC form holds `V ≥ 1` vowels, `⌈V / 2⌉ ≤ countWord w ≤ V`; in particular, for
every word `w` that is its own lower-cased NFC form and holds `V ≥ 1` vowels,
`⌈V / 2⌉ ≤ countWord w ≤ V` with `V` counted in `w`. -/
theorem countWord_vowel_bounds (w : JSString)
    (hV : 1 ≤ vowelCount (nfc (toLowerCase w))) :
    ((vowelCount (nfc (toLowerCase w)) + 1) / 2 ≤ countWord w
        ∧ countWord w ≤ vowelCount (nfc (toLowerCase w)))
      ∧ (nfc (toLowerCase w) = w →
          (vowelCount w + 1) / 2 ≤ countWord w ∧ countWord w ≤ vowelCount w) := by
  have hne : w ≠ [] := by
    intro h
    rw [h] at hV
    exact absurd hV (by decide)
  have hb := greedy_bounds (nfc (toLowerCase w))
  have hc := countWord_eq_greedy w hne
  have hmain : (vowelCount (nfc (toLowerCase w)) + 1) / 2 ≤ countWord w
      ∧ countWord w ≤ vowelCount (nfc (toLowerCase w)) := by
    rw [hc]
    omega
  refine ⟨hmain, ?_⟩
  intro hform
  rw [hform] at hmain
  exact hmain

/-- C17 at "aire": it is its own lower-cased NFC form, with three vowels and
two syllables. -/
theorem countWord_vowel_bounds_witness :
    nfc (toLowerCase (str "aire")) = str "aire" ∧ vowelCount (str "aire") = 3
      ∧ (3 + 1) / 2 ≤ countWord (str "aire") ∧ countWord (str "aire") ≤ 3 :=
  ⟨by decide, by decide,
    ((countWord_vowel_bounds (str "aire") (by decide)).2 (by decide)).1,
    ((countWord_vowel_bounds (str "aire") (by decide)).2 (by decide)).2⟩

/-- C18: extending a word never lowers its count and raises it by at most
one.  For every word `w` of Spanish letters and every Spanish letter `c`, the
counts of `c` followed by `w` and of `w` followed by `c` lie between
`countWord w` and `countWord w + 1`. -/
theorem countWord_extend (w : JSString) (c : Nat)
    (hl : ∀ u ∈ w, isSpanishLetter u = true) (hc : isSpanishLetter c = true) :
    (countWord w ≤ countWord (c :: w) ∧ countWord (c :: w) ≤ countWord w + 1)
      ∧ (countWord w ≤ countWord (w ++ [c]) ∧ countWord (w ++ [c]) ≤ countWord w + 1) := by
  have hcw : ∀ u ∈ c :: w, isSpanishLetter u = true := by
    intro u hu
    rcases List.mem_cons.1 hu with h | h
    · rw [h]; exact hc
    · exact hl u h
  have hwc : ∀ u ∈ w ++ [c], isSpanishLetter u = true := by
    intro u hu
    rcases List.mem_append.1 hu with h | h
    · exact hl u h
    · rw [List.mem_singleton.1 h]; exact hc
  have hne2 : w ++ [c] ≠ [] := by simp
  rw [countWord_spanish (c :: w) hcw, countWord_spanish (w ++ [c]) hwc, countWord_spanish w hl,
    if_neg (List.cons_ne_nil _ _), if_neg hne2, List.map_cons, List.map_append]
  have h1 := greedy_cons_bounds (w.map lowerLetter) (lowerLetter c)
  have h2 := greedy_append_bounds (lowerLetter c) (w.map lowerLetter)
  simp only [List.map_cons, List.map_nil]
  by_cases hw : w = []
  · subst hw
    simp only [if_true, List.map_nil, List.nil_append] at h1 h2 ⊢
    have h0 : greedy [] = 0 := rfl
    rw [h0] at h1
    omega
  · simp only [hw, if_false]
    omega

/-- C18 at "ire" and `a`: "aire" pairs `a` with `i` and leaves `e` alone, and
still counts 2 like "ire"; "irea" counts 3. -/
theorem countWord_extend_witness :
    (∀ u ∈ str "ire", isSpanishLetter u = true) ∧ isSpanishLetter 0x61 = true
      ∧ countWord (str "ire") = 2 ∧ countWord (str "aire") = 2 ∧ countWord (str "irea") = 3
      ∧ countWord (str "ire") ≤ countWord (0x61 :: str "ire")
      ∧ countWord (str "ire" ++ [0x61]) ≤ countWord (str "ire") + 1 :=
  ⟨by decide, by decide, by decide, by decide, by decide,
    (countWord_extend (str "ire") 0x61 (by decide) (by decide)).1.1,
    (countWord_extend (str "ire") 0x61 (by decide) (by decide)).2.2⟩

/-! ## The loop as a single pass -/

/-- Each run of the body moves the index by 1 or by 2. -/
theorem loopBody_index (word : JSString) (s : LoopState) (h : s.i < word.length) :
    (loopBody word s h).i = s.i + 1 ∨ (loopBody word s h).i = s.i + 2 := by
  unfold loopBody
  split_ifs <;> simp

/-- Once the fuel covers the rest of the word the final state does not depend
on it. -/
theorem whileLoop_fuel (word : JSString) :
    ∀ (f1 f2 : Nat) (s : LoopState), word.length - s.i ≤ f1 → word.length - s.i ≤ f2 →
      whileLoop word f1 s = whileLoop word f2 s := by
  intro f1
  induction f1 with
  | zero =>
    intro f2 s h1 _
    have hge : ¬s.i < word.length := by omega
    cases f2 with
    | zero => rfl
    | succ n => simp only [whileLoop, hge, dite_false]
  | succ n ih =>
    intro f2 s h1 h2
    by_cases hlt : s.i < word.length
    · cases f2 with
      | zero => omega
      | succ m =>
        simp only [whileLoop, hlt, dite_true]
        have hi := loopBody_index word s hlt
        exact ih m (loopBody word s hlt) (by omega) (by omega)
    · cases f2 with
      | zero => simp only [whileLoop, hlt, dite_false]
      | succ m => simp only [whileLoop, hlt, dite_false]

/-- The body runs at most once per code unit left. -/
theorem whileSteps_le (word : JSString) :
    ∀ (fuel : Nat) (s : LoopState), whileSteps word fuel s ≤ word.length - s.i := by
  intro fuel
  induction fuel with
  | zero =>
    intro s
    exact Nat.zero_le _
  | succ n ih =>
    intro s
    by_cases hlt : s.i < word.length
    · simp only [whileSteps, hlt, dite_true]
      have hi := loopBody_index word s hlt
      have := ih (loopBody word s hlt)
      omega
    · simp only [whileSteps, hlt, dite_false]
      exact Nat.zero_le _

/-- A run of the body entered inside the word reads inside the word. -/
theorem bodyReads_lt (word : JSString) (i : Nat) (h : i < word.length) :
    ∀ j ∈ bodyReads word i, j < word.length := by
  intro j hj
  unfold bodyReads at hj
  by_cases h1 : i + 1 < word.length
  · have hsub : j = i ∨ j = i + 1 := by
      split_ifs at hj <;> simp at hj <;> omega
    omega
  · have hsub : j = i := by
      split_ifs at hj <;> simp at hj <;> omega
    omega

theorem bodyReads_next (word : JSString) (i : Nat) (h : i + 1 ∈ bodyReads word i) :
    i + 1 < word.length := by
  unfold bodyReads at h
  by_contra h1
  split_ifs at h <;> simp at h

/-- C16: single terminating pass.  For every word the `while` loop of
`countWord` terminates: after `word.length` iterations the guard
`i < word.length` is false, and more iterations change nothing.  Each run of
the body moves `i` up by 1 or by 2, the body runs at most `word.length` times,
every read made by a run of the body is inside the word, and `word[i+1]` is
read only when `i + 1 < word.length`. -/
theorem countWord_single_pass :
    ∀ word : JSString,
      word.length ≤ (whileLoop word word.length ⟨0, 0⟩).i
        ∧ (∀ fuel, word.length ≤ fuel →
            whileLoop word fuel ⟨0, 0⟩ = whileLoop word word.length ⟨0, 0⟩)
        ∧ (∀ (s : LoopState) (h : s.i < word.length),
            (loopBody word s h).i = s.i + 1 ∨ (loopBody word s h).i = s.i + 2)
        ∧ (∀ fuel, whileSteps word fuel ⟨0, 0⟩ ≤ word.length)
        ∧ (∀ i, i < word.length → ∀ j ∈ bodyReads word i, j < word.length)
        ∧ (∀ i, i + 1 ∈ bodyReads word i → i + 1 < word.length) := by
  intro word
  refine ⟨?_, ?_, ?_, ?_, ?_, ?_⟩
  · exact (whileLoop_spec word word.length ⟨0, 0⟩ (Nat.sub_le _ _)).2
  · intro fuel hfuel
    exact whileLoop_fuel word fuel word.length ⟨0, 0⟩ (by simpa using hfuel) (by simp)
  · exact loopBody_index word
  · intro fuel
    exact whileSteps_le word fuel ⟨0, 0⟩
  · exact bodyReads_lt word
  · exact bodyReads_next word

/-! ## Decimal digits -/

theorem digitChar_value : ∀ k < 10, (Nat.digitChar k).toNat - 48 = k := by
  decide

theorem digitChar_plain :
    ∀ k < 10, Nat.digitChar k ≠ '-' ∧ Nat.digitChar k ≠ 'e' ∧ Nat.digitChar k ≠ '.'
      ∧ Nat.digitChar k ≠ '+' := by
  decide

theorem digitsValue_cons (c : Char) (ds : List Char) (start : Nat) :
    digitsValue (c :: ds) start = digitsValue ds (10 * start + (c.toNat - 48)) := rfl

theorem digitsValue_append (l1 l2 : List Char) (start : Nat) :
    digitsValue (l1 ++ l2) start = digitsValue l2 (digitsValue l1 start) := by
  unfold digitsValue
  rw [List.foldl_append]

theorem digitsValue_zeros (e start : Nat) :
    digitsValue (List.replicate e '0') start = start * 10 ^ e := by
  induction e generalizing start with
  | zero => simp [digitsValue]
  | succ e ih =>
    rw [List.replicate_succ, digitsValue_cons, ih]
    have h0 : ('0' : Char).toNat - 48 = 0 := by decide
    rw [h0, Nat.pow_succ]
    ring

/-- Reading back the digits written for `n` in front of `ds` is reading `ds`
from `n`. -/
theorem toDigitsCore_value :
    ∀ (fuel n : Nat) (ds : List Char), n < fuel →
      digitsValue (Nat.toDigitsCore 10 fuel n ds) 0 = digitsValue ds n := by
  intro fuel
  induction fuel with
  | zero =>
    intro n ds h
    omega
  | succ f ih =>
    intro n ds h
    have hd := digitChar_value (n % 10) (Nat.mod_lt _ (by decide))
    unfold Nat.toDigitsCore
    by_cases h0 : n / 10 = 0
    · simp only [h0, if_true]
      rw [digitsValue_cons, hd]
      congr 1
      omega
    · simp only [h0, if_false]
      rw [ih (n / 10) _ (by omega), digitsValue_cons, hd]
      congr 1
      omega

/-- The digits written for a number are none of the characters `q` that no
digit is. -/
theorem toDigitsCore_avoid (q : Char) (hq : ∀ k < 10, Nat.digitChar k ≠ q) :
    ∀ (fuel n : Nat) (ds : List Char), q ∉ ds → q ∉ Nat.toDigitsCore 10 fuel n ds := by
  intro fuel
  induction fuel with
  | zero =>
    intro n ds h
    exact h
  | succ f ih =>
    intro n ds h
    have hd := hq (n % 10) (Nat.mod_lt _ (by decide))
    have hcons : q ∉ Nat.digitChar (n % 10) :: ds := by
      intro hmem
      rcases List.mem_cons.1 hmem with h1 | h1
      · exact hd h1.symm
      · exact h h1
    unfold Nat.toDigitsCore
    by_cases h0 : n / 10 = 0
    · simp only [h0, if_true]
      exact hcons
    · simp only [h0, if_false]
      exact ih (n / 10) _ hcons

theorem toDigits_avoid (q : Char) (hq : ∀ k < 10, Nat.digitChar k ≠ q) (n : Nat) :
    q ∉ Nat.toDigits 10 n :=
  toDigitsCore_avoid q hq (n + 1) n [] (List.not_mem_nil _)

theorem toDigits_value (n : Nat) : digitsValue (Nat.toDigits 10 n) 0 = n :=
  toDigitsCore_value (n + 1) n [] (Nat.lt_succ_self n)

theorem toDigits_inj (m n : Nat) (h : Nat.toDigits 10 m = Nat.toDigits 10 n) : m = n := by
  have hm := toDigits_value m
  rw [h, toDigits_value] at hm
  exact hm.symm

theorem toDigits_ne_nil (n : Nat) : Nat.toDigits 10 n ≠ [] := by
  unfold Nat.toDigits Nat.toDigitsCore
  by_cases h0 : n / 10 = 0
  · simp only [h0, if_true]
    exact List.cons_ne_nil _ _
  · simp only [h0, if_false]
    intro hnil
    have hlen := Nat.toDigitsCore_lens_eq 10 n (n / 10) (Nat.digitChar (n % 10)) []
    rw [hnil] at hlen
    simp at hlen

/-! ## Rendering of Numbers -/

theorem mantissa_inj (d d' : List Char) (hd : '.' ∉ d) (hd' : '.' ∉ d')
    (h : mantissa d = mantissa d') : d = d' := by
  match d, d' with
  | [], [] => rfl
  | [], [c] => simp [mantissa] at h
  | [], c :: c2 :: r => simp [mantissa] at h
  | [c], [] => simp [mantissa] at h
  | c :: c2 :: r, [] => simp [mantissa] at h
  | [c], [c'] => simpa [mantissa] using h
  | [c], c' :: c2 :: r => simp [mantissa] at h
  | c :: c2 :: r, [c'] => simp [mantissa] at h
  | c :: c2 :: r, c' :: c2' :: r' =>
    simp only [mantissa, List.cons.injEq, true_and] at h
    obtain ⟨h1, h2, h3⟩ := h
    rw [h1, h2, h3]

theorem mantissa_avoid (q : Char) (hq : q ≠ '.') (d : List Char) (hd : q ∉ d) :
    q ∉ mantissa d := by
  match d with
  | [] => simp [mantissa]
  | [c] => simpa [mantissa] using hd
  | c :: c2 :: r =>
    simp only [mantissa, List.mem_cons, not_or] at hd ⊢
    exact ⟨hd.1, hq, hd.2.1, hd.2.2⟩

theorem split_at_marker (q : Char) (l1 l2 r1 r2 : List Char) (h1 : q ∉ l1) (h2 : q ∉ l2)
    (h : l1 ++ q :: r1 = l2 ++ q :: r2) : l1 = l2 ∧ r1 = r2 := by
  induction l1 generalizing l2 with
  | nil =>
    cases l2 with
    | nil => simpa using h
    | cons c l2 =>
      simp only [List.nil_append, List.cons_append, List.cons.injEq] at h
      exact absurd (List.mem_cons.2 (Or.inl h.1)) h2
  | cons c l1 ih =>
    cases l2 with
    | nil =>
      simp only [List.nil_append, List.cons_append, List.cons.injEq] at h
      exact absurd (List.mem_cons.2 (Or.inl h.1.symm)) h1
    | cons c' l2 =>
      simp only [List.cons_append, List.cons.injEq] at h
      have := ih l2 (fun hm => h1 (List.mem_cons_of_mem _ hm))
        (fun hm => h2 (List.mem_cons_of_mem _ hm)) h.2
      exact ⟨by rw [h.1, this.1], this.2⟩

/-- The rendering determines the value rendered. -/
theorem formatDecimal_value (s s' e e' : Nat)
    (h : formatDecimal (Nat.toDigits 10 s) e = formatDecimal (Nat.toDigits 10 s') e') :
    s * 10 ^ e = s' * 10 ^ e' := by
  have he : ∀ n, 'e' ∉ Nat.toDigits 10 n :=
    toDigits_avoid 'e' (fun k hk => (digitChar_plain k hk).2.1)
  have hp : ∀ n, '.' ∉ Nat.toDigits 10 n :=
    toDigits_avoid '.' (fun k hk => (digitChar_plain k hk).2.2.1)
  have hplain : ∀ (n x : Nat), 'e' ∉ Nat.toDigits 10 n ++ List.replicate x '0' := by
    intro n x hmem
    rcases List.mem_append.1 hmem with h1 | h1
    · exact he n h1
    · exact absurd (List.eq_of_mem_replicate h1) (by decide)
  have hval : ∀ (n x : Nat),
      digitsValue (Nat.toDigits 10 n ++ List.replicate x '0') 0 = n * 10 ^ x := by
    intro n x
    rw [digitsValue_append, toDigits_value, digitsValue_zeros]
  unfold formatDecimal at h
  by_cases c1 : (Nat.toDigits 10 s).length + e ≤ 21
  · by_cases c2 : (Nat.toDigits 10 s').length + e' ≤ 21
    · rw [if_pos c1, if_pos c2] at h
      rw [← hval s e, ← hval s' e', h]
    · rw [if_pos c1, if_neg c2] at h
      exfalso
      apply hplain s e
      rw [h]
      simp
  · by_cases c2 : (Nat.toDigits 10 s').length + e' ≤ 21
    · rw [if_neg c1, if_pos c2] at h
      exfalso
      apply hplain s' e'
      rw [← h]
      simp
    · rw [if_neg c1, if_neg c2, List.append_assoc, List.append_assoc] at h
      have hsplit := split_at_marker 'e' _ _ _ _
        (mantissa_avoid 'e' (by decide) _ (he s)) (mantissa_avoid 'e' (by decide) _ (he s')) h
      have hs : s = s' := toDigits_inj s s' (mantissa_inj _ _ (hp s) (hp s') hsplit.1)
      have hn := toDigits_inj _ _ (List.cons_injective hsplit.2)
      subst hs
      have : e = e' := by omega
      rw [this]

/-! ## The shortest digits read back as the Number -/

theorem closer_mem (x : Nat) (a b : Nat × Nat) : closer x a b = a ∨ closer x a b = b := by
  unfold closer
  split
  · exact Or.inr rfl
  · split
    · exact Or.inl rfl
    · split
      · exact Or.inl rfl
      · exact Or.inr rfl

theorem foldl_closer_mem (x : Nat) (cs : List (Nat × Nat)) (c : Nat × Nat) :
    cs.foldl (closer x) c ∈ c :: cs := by
  induction cs generalizing c with
  | nil => simp
  | cons d cs ih =>
    rw [List.foldl_cons]
    have h := ih (closer x c d)
    rcases List.mem_cons.1 h with h1 | h1
    · rcases closer_mem x c d with h2 | h2
      · rw [h1, h2]
        exact List.mem_cons_self _ _
      · rw [h1, h2]
        exact List.mem_cons_of_mem _ (List.mem_cons_self _ _)
    · exact List.mem_cons_of_mem _ (List.mem_cons_of_mem _ h1)

theorem closest_mem (x : Nat) (l : List (Nat × Nat)) (c : Nat × Nat)
    (h : closest x l = some c) : c ∈ l := by
  cases l with
  | nil => simp [closest] at h
  | cons d ds =>
    simp only [closest, Option.some.injEq] at h
    rw [← h]
    exact foldl_closer_mem x ds d

theorem candidates_spec (x k : Nat) (c : Nat × Nat) (h : c ∈ candidates x k) :
    10 ^ (k - 1) ≤ c.1 ∧ roundToNumber (c.1 * 10 ^ c.2) = x := by
  unfold candidates at h
  rw [List.mem_flatMap] at h
  obtain ⟨n, -, hn⟩ := h
  by_cases hk : k ≤ n
  · rw [if_pos hk, List.mem_map] at hn
    obtain ⟨s, hs, rfl⟩ := hn
    rw [List.mem_filter] at hs
    have := of_decide_eq_true hs.2
    exact ⟨this.1, this.2.2⟩
  · rw [if_neg hk] at hn
    exact absurd hn (List.not_mem_nil _)

/-- The pair chosen for `x` is a candidate, or `(x, 0)` when there is none. -/
theorem shortest_cases (x : Nat) :
    shortest x = (x, 0)
      ∨ (1 ≤ (shortest x).1 ∧ roundToNumber ((shortest x).1 * 10 ^ (shortest x).2) = x) := by
  unfold shortest
  cases hf : (List.range (Nat.toDigits 10 x).length).findSome? fun i =>
      closest x (candidates x (i + 1)) with
  | none => exact Or.inl rfl
  | some c =>
    obtain ⟨i, -, hi⟩ := List.exists_of_findSome?_eq_some hf
    have hc := candidates_spec x (i + 1) c (closest_mem x _ c hi)
    exact Or.inr ⟨le_trans (Nat.pos_pow_of_pos _ (by decide)) hc.1, hc.2⟩

theorem shortest_round (x : Nat) (hx : roundToNumber x = x) :
    roundToNumber ((shortest x).1 * 10 ^ (shortest x).2) = x := by
  rcases shortest_cases x with h | h
  · rw [h]
    simpa using hx
  · exact h.2

/-- Two Numbers rendered alike are equal. -/
theorem renderNat_inj (x y : Nat) (hx : roundToNumber x = x) (hy : roundToNumber y = y)
    (h : renderNat x = renderNat y) : x = y := by
  have hv := formatDecimal_value _ _ _ _ h
  rw [← shortest_round x hx, ← shortest_round y hy, hv]

theorem formatDecimal_avoid (q : Char) (hq1 : q ≠ '.') (hq2 : q ≠ 'e') (hq3 : q ≠ '+')
    (hq4 : q ≠ '0') (hq : ∀ k < 10, Nat.digitChar k ≠ q) (s e : Nat) :
    q ∉ formatDecimal (Nat.toDigits 10 s) e := by
  unfold formatDecimal
  split
  · intro hmem
    rcases List.mem_append.1 hmem with h1 | h1
    · exact toDigits_avoid q hq s h1
    · exact hq4 (List.eq_of_mem_replicate h1)
  · intro hmem
    rcases List.mem_append.1 hmem with h1 | h1
    · rcases List.mem_append.1 h1 with h2 | h2
      · exact mantissa_avoid q hq1 _ (toDigits_avoid q hq s) h2
      · simp only [List.mem_cons, List.mem_singleton, List.not_mem_nil, or_false] at h2
        rcases h2 with h3 | h3
        · exact hq2 h3
        · exact hq3 h3
    · exact toDigits_avoid q hq _ h1

theorem renderNat_no_minus (x : Nat) : '-' ∉ renderNat x :=
  formatDecimal_avoid '-' (by decide) (by decide) (by decide) (by decide)
    (fun k hk => (digitChar_plain k hk).1) _ _

theorem renderNat_ne_nil (x : Nat) : renderNat x ≠ [] := by
  unfold renderNat formatDecimal
  have hne := toDigits_ne_nil (shortest x).1
  split
  · intro h
    exact hne (List.append_eq_nil.1 h).1
  · intro h
    have h1 := (List.append_eq_nil.1 h).1
    have h2 := (List.append_eq_nil.1 h1).2
    exact List.cons_ne_nil _ _ h2

/-- Two Numbers with the same `String(n)` are equal. -/
theorem numberToString_inj (m n : Int) (hm : isNumber m) (hn : isNumber n)
    (h : numberToString m = numberToString n) : m = n := by
  unfold numberToString at h
  have hd := congrArg String.data h
  simp only at hd
  by_cases c1 : m < 0
  · by_cases c2 : n < 0
    · rw [if_pos c1, if_pos c2] at hd
      have := renderNat_inj _ _ hm.1 hn.1 (List.cons_injective hd)
      omega
    · rw [if_pos c1, if_neg c2] at hd
      exfalso
      apply renderNat_no_minus n.natAbs
      rw [← hd]
      exact List.mem_cons_self _ _
  · by_cases c2 : n < 0
    · rw [if_neg c1, if_pos c2] at hd
      exfalso
      apply renderNat_no_minus m.natAbs
      rw [hd]
      exact List.mem_cons_self _ _
    · rw [if_neg c1, if_neg c2] at hd
      have := renderNat_inj _ _ hm.1 hn.1 hd
      omega

/-! ## Rounding to a Number -/

/-- The unit found by `spacing` is the starting one or twice a unit that
leaves 53 bits or more. -/
theorem spacing_inv (fuel v u : Nat) (hu : u = 1 ∨ ∃ h, u = 2 * h ∧ 2 ^ 53 ≤ v / h) :
    spacing fuel v u = 1 ∨ ∃ h, spacing fuel v u = 2 * h ∧ 2 ^ 53 ≤ v / h := by
  induction fuel generalizing u with
  | zero => exact hu
  | succ f ih =>
    unfold spacing
    by_cases hlt : v / u < 2 ^ 53
    · rw [if_pos hlt]
      exact hu
    · rw [if_neg hlt]
      exact ih (2 * u) (Or.inr ⟨u, rfl, Nat.le_of_not_lt hlt⟩)

theorem roundToNumber_safe (v : Nat) (h : v < 2 ^ 53) : roundToNumber v = v := by
  unfold roundToNumber
  rw [if_pos h]

/-- Rounding does not go below `2 ^ 53` from above it. -/
theorem roundToNumber_ge (v : Nat) (h : 2 ^ 53 ≤ v) : 2 ^ 53 ≤ roundToNumber v := by
  have hfloor : 2 ^ 53 ≤ v / spacing v v 1 * spacing v v 1 := by
    rcases spacing_inv v v 1 (Or.inl rfl) with h1 | ⟨k, hk, hv⟩
    · rw [h1]
      simpa using h
    · rw [hk]
      have hk0 : 0 < k := by
        rcases Nat.eq_zero_or_pos k with h0 | h0
        · rw [h0] at hv
          simp at hv
        · exact h0
      have h2 : v / (2 * k) = v / k / 2 := by
        rw [Nat.mul_comm, Nat.div_div_eq_div_mul]
      rw [h2]
      have h3 : 2 ^ 52 ≤ v / k / 2 := by omega
      calc 2 ^ 53 = 2 ^ 52 * (2 * 1) := by norm_num
        _ ≤ v / k / 2 * (2 * k) := Nat.mul_le_mul h3 (Nat.mul_le_mul_left 2 hk0)
  unfold roundToNumber
  rw [if_neg (Nat.not_lt.2 h)]
  simp only
  have hstep : v / spacing v v 1 * spacing v v 1 ≤ (v / spacing v v 1 + 1) * spacing v v 1 :=
    Nat.mul_le_mul_right _ (Nat.le_succ _)
  split
  · exact hfloor
  · split
    · exact le_trans hfloor hstep
    · split
      · exact hfloor
      · exact le_trans hfloor hstep

/-- Below `2 ^ 53` only the integer itself rounds to it. -/
theorem eq_of_roundToNumber_safe (v x : Nat) (hx : x < 2 ^ 53) (h : roundToNumber v = x) :
    v = x := by
  by_cases hv : v < 2 ^ 53
  · rw [roundToNumber_safe v hv] at h
    exact h
  · have := roundToNumber_ge v (Nat.le_of_not_lt hv)
    omega

/-! ## Digits of a multiple of a power of ten -/

theorem toDigitsCore_append (fuel n : Nat) (ds : List Char) :
    Nat.toDigitsCore 10 fuel n ds = Nat.toDigitsCore 10 fuel n [] ++ ds := by
  induction fuel generalizing n ds with
  | zero => rfl
  | succ f ih =>
    unfold Nat.toDigitsCore
    by_cases h0 : n / 10 = 0
    · simp only [h0, if_true]
      rfl
    · simp only [h0, if_false]
      rw [ih (n / 10) (Nat.digitChar (n % 10) :: ds), ih (n / 10) [Nat.digitChar (n % 10)],
        List.append_assoc]
      rfl

theorem toDigitsCore_fuel (fuel : Nat) :
    ∀ (n fuel2 : Nat), n < fuel → n < fuel2 →
      Nat.toDigitsCore 10 fuel n [] = Nat.toDigitsCore 10 fuel2 n [] := by
  induction fuel with
  | zero =>
    intro n fuel2 h
    omega
  | succ f ih =>
    intro n fuel2 h h2
    cases fuel2 with
    | zero => omega
    | succ f2 =>
      unfold Nat.toDigitsCore
      by_cases h0 : n / 10 = 0
      · simp only [h0, if_true]
      · simp only [h0, if_false]
        rw [toDigitsCore_append f, toDigitsCore_append f2,
          ih (n / 10) f2 (by omega) (by omega)]

/-- The digits of `n ≥ 10` are those of `n / 10` followed by the last one. -/
theorem toDigits_step (n : Nat) (h : 10 ≤ n) :
    Nat.toDigits 10 n = Nat.toDigits 10 (n / 10) ++ [Nat.digitChar (n % 10)] := by
  have h0 : n / 10 ≠ 0 := by omega
  show Nat.toDigitsCore 10 (n + 1) n [] = Nat.toDigitsCore 10 (n / 10 + 1) (n / 10) [] ++ _
  rw [Nat.toDigitsCore]
  simp only [h0, if_false]
  rw [toDigitsCore_append, toDigitsCore_fuel n (n / 10) (n / 10 + 1) (by omega) (by omega)]

theorem toDigits_mul_pow (s e : Nat) (hs : 1 ≤ s) :
    Nat.toDigits 10 (s * 10 ^ e) = Nat.toDigits 10 s ++ List.replicate e '0' := by
  induction e with
  | zero => simp
  | succ e ih =>
    have hpos : 1 ≤ s * 10 ^ e := Nat.mul_pos hs (Nat.pos_pow_of_pos e (by decide))
    have hmul : s * 10 ^ (e + 1) = s * 10 ^ e * 10 := by
      rw [Nat.pow_succ, Nat.mul_assoc]
    rw [hmul, toDigits_step _ (by omega), Nat.mul_div_cancel _ (by decide),
      Nat.mul_mod_left, ih, List.replicate_succ', List.append_assoc]
    rfl

/-! ## Integers below 2^53 -/

theorem isNumber_of_safe (n : Int) (h : n.natAbs < 2 ^ 53) : isNumber n :=
  ⟨roundToNumber_safe _ h, lt_trans h (by norm_num)⟩

theorem toDigits_length_safe (x : Nat) (h : x < 2 ^ 53) : (Nat.toDigits 10 x).length ≤ 21 :=
  Nat.repr_length x 21 (by decide) (lt_trans h (by norm_num))

/-- Below `2 ^ 53` the rendering is the decimal digits of the integer: only the
integer itself rounds to it, so the digits chosen are its own, zeros at the end
apart, and they are at most 21. -/
theorem renderNat_safe (x : Nat) (h : x < 2 ^ 53) : renderNat x = Nat.toDigits 10 x := by
  have hl := toDigits_length_safe x h
  unfold renderNat formatDecimal
  rcases shortest_cases x with hc | ⟨hs, hr⟩
  · rw [hc]
    simp only [Nat.add_zero]
    rw [if_pos hl]
    simp
  · have hx := eq_of_roundToNumber_safe _ x h hr
    have hd := toDigits_mul_pow (shortest x).1 (shortest x).2 hs
    rw [hx] at hd
    have hlen : (Nat.toDigits 10 (shortest x).1).length + (shortest x).2 ≤ 21 := by
      have := congrArg List.length hd
      rw [List.length_append, List.length_replicate] at this
      omega
    rw [if_pos hlen, hd]

/-- Below 2^53 in absolute value `String(n)` is the decimal rendering of the
integer. -/
theorem numberToString_safe (n : Int) (h : n.natAbs < 2 ^ 53) :
    numberToString n = toString n := by
  unfold numberToString
  rw [renderNat_safe _ h]
  cases n with
  | ofNat m =>
    have : ¬ (Int.ofNat m < 0) := by simp
    rw [if_neg this]
    rfl
  | negSucc m =>
    have : Int.negSucc m < 0 := Int.negSucc_lt_zero m
    rw [if_pos this]
    rfl

/-! ## The verse classifier -/

set_option maxRecDepth 100000 in
theorem names_keys :
    ∀ p ∈ names, ∃ k : Int, 1 ≤ k ∧ k ≤ 14 ∧ isNumber k ∧ p.1 = numberToString k := by
  intro p hp
  simp only [names, List.mem_cons, List.mem_singleton, List.not_mem_nil, or_false] at hp
  rcases hp with h | h | h | h | h | h | h | h | h | h | h | h | h | h
  · exact ⟨1, by decide, by decide, by decide, by rw [h]; decide⟩
  · exact ⟨2, by decide, by decide, by decide, by rw [h]; decide⟩
  · exact ⟨3, by decide, by decide, by decide, by rw [h]; decide⟩
  · exact ⟨4, by decide, by decide, by decide, by rw [h]; decide⟩
  · exact ⟨5, by decide, by decide, by decide, by rw [h]; decide⟩
  · exact ⟨6, by decide, by decide, by decide, by rw [h]; decide⟩
  · exact ⟨7, by decide, by decide, by decide, by rw [h]; decide⟩
  · exact ⟨8, by decide, by decide, by decide, by rw [h]; decide⟩
  · exact ⟨9, by decide, by decide, by decide, by rw [h]; decide⟩
  · exact ⟨10, by decide, by decide, by decide, by rw [h]; decide⟩
  · exact ⟨11, by decide, by decide, by decide, by rw [h]; decide⟩
  · exact ⟨12, by decide, by decide, by decide, by rw [h]; decide⟩
  · exact ⟨13, by decide, by decide, by decide, by rw [h]; decide⟩
  · exact ⟨14, by decide, by decide, by decide, by rw [h]; decide⟩

/-- Outside 1..14 the rendering of a Number is no key of the table. -/
theorem names_lookup_none (n : Int) (hn : isNumber n) (h : ¬(1 ≤ n ∧ n ≤ 14)) :
    names.lookup (numberToString n) = none := by
  cases hl : names.lookup (numberToString n) with
  | none => rfl
  | some v =>
    exfalso
    obtain ⟨k, hk1, hk2, hk, hkey⟩ := names_keys _ (mem_of_lookup _ v names hl)
    have := numberToString_inj n k hn hk hkey
    rw [this] at h
    exact h ⟨hk1, hk2⟩

theorem verseName_fallback (n : Int) (hn : isNumber n) (h : ¬(1 ≤ n ∧ n ≤ 14)) :
    verseName n = numberToString n ++ " sílabas" := by
  unfold verseName
  rw [names_lookup_none n hn h]

set_option maxRecDepth 100000 in
theorem verseName_table (n : Int) (h1 : 1 ≤ n) (h2 : n ≤ 14) :
    verseName n = verseNameList.getD (n.toNat - 1) "" := by
  interval_cases n <;> decide

set_option maxRecDepth 100000 in
theorem verseName_table_last (n : Int) (h1 : 1 ≤ n) (h2 : n ≤ 14) :
    (verseName n).data.getLast? = some 'o' := by
  interval_cases n <;> decide

theorem verseName_fallback_last (n : Int) (hn : isNumber n) (h : ¬(1 ≤ n ∧ n ≤ 14)) :
    (verseName n).data.getLast? = some 's' := by
  rw [verseName_fallback n hn h, String.data_append]
  have : (" sílabas" : String).data = [' ', 's', 'í', 'l', 'a', 'b', 'a'] ++ ['s'] := rfl
  rw [this, ← List.append_assoc, List.getLast?_append_of_ne_nil _ (by simp)]
  rfl

set_option maxRecDepth 100000 in
theorem verseName_table_inj (m n : Int) (hm1 : 1 ≤ m) (hm2 : m ≤ 14) (hn1 : 1 ≤ n)
    (hn2 : n ≤ 14) (h : verseName m = verseName n) : m = n := by
  interval_cases m <;> interval_cases n <;> first | rfl | (exfalso; revert h; decide)

/-! ## Claims on `verseName` -/

set_option maxRecDepth 100000 in
/-- C4, counterexample: 2^63 is an integer Number outside 1..14, and
`verseName` does not give its decimal rendering followed by " sílabas": the
template literal prints the shortest digits that read back as the same Number,
"9223372036854776000".  From 10^21 on it prints exponent notation. -/
theorem verseName_fallback_counterexample :
    isNumber 9223372036854775808
      ∧ ¬(1 ≤ (9223372036854775808 : Int) ∧ (9223372036854775808 : Int) ≤ 14)
      ∧ toString (9223372036854775808 : Int) = "9223372036854775808"
      ∧ verseName 9223372036854775808 = "9223372036854776000 sílabas"
      ∧ verseName 9223372036854775808 ≠ toString (9223372036854775808 : Int) ++ " sílabas"
      ∧ isNumber 1000000000000000000000
      ∧ verseName 1000000000000000000000 = "1e+21 sílabas"
      ∧ verseName 1000000000000000000000
          ≠ toString (1000000000000000000000 : Int) ++ " sílabas" := by
  refine ⟨by decide, by decide, by decide, by decide, by decide, by decide, by decide,
    by decide⟩

set_option maxRecDepth 100000 in
/-- C4 (amended): `verseName` is the fixed table with a fallback.  For every
integer `n` from 1 to 14 the result is the `n`-th name of the list Monosílabo
... Alejandrino; for every other integer Number it is `String(n)` followed by
" sílabas", and `String(n)` is the decimal rendering of `n` whenever
`|n| < 2^53`, which every such integer is a Number for.  The boundary values of
the specification, a negative one, the largest integer below 2^53 and two
larger Numbers are part of the statement. -/
theorem verseName_table_or_fallback :
    (∀ n : Int, isNumber n → verseName n =
        if 1 ≤ n ∧ n ≤ 14 then verseNameList.getD (n.toNat - 1) ""
        else numberToString n ++ " sílabas")
      ∧ (∀ n : Int, n.natAbs < 2 ^ 53 → isNumber n ∧ numberToString n = toString n)
      ∧ (∀ n : Int, n.natAbs < 2 ^ 53 → verseName n =
          if 1 ≤ n ∧ n ≤ 14 then verseNameList.getD (n.toNat - 1) ""
          else toString n ++ " sílabas")
      ∧ verseName 11 = "Endecasílabo" ∧ verseName 15 = "15 sílabas"
      ∧ verseName 0 = "0 sílabas" ∧ verseName (-3) = "-3 sílabas"
      ∧ verseName 9007199254740991 = "9007199254740991 sílabas"
      ∧ isNumber 100000000000000000000
      ∧ verseName 100000000000000000000 = "100000000000000000000 sílabas"
      ∧ isNumber (-1000000000000000000000)
      ∧ verseName (-1000000000000000000000) = "-1e+21 sílabas" := by
  have hall : ∀ n : Int, isNumber n → verseName n =
      if 1 ≤ n ∧ n ≤ 14 then verseNameList.getD (n.toNat - 1) ""
      else numberToString n ++ " sílabas" := by
    intro n hn
    by_cases h : 1 ≤ n ∧ n ≤ 14
    · rw [if_pos h]
      exact verseName_table n h.1 h.2
    · rw [if_neg h]
      exact verseName_fallback n hn h
  refine ⟨hall, fun n h => ⟨isNumber_of_safe n h, numberToString_safe n h⟩, ?_, by decide,
    by decide, by decide, by decide, by decide, by decide, by decide, by decide, by decide⟩
  intro n h
  rw [hall n (isNumber_of_safe n h), numberToString_safe n h]

/-- C19: `verseName` is injective on the integers, an integer argument being
a Number.  The fourteen names are pairwise distinct, each ends in `o` while a
fallback ends in `s`, and the fallback renders distinct Numbers differently:
the digits printed read back as the Number they were printed for. -/
theorem verseName_injective (m n : Int) (hm : isNumber m) (hn : isNumber n)
    (h : verseName m = verseName n) : m = n := by
  by_cases cm : 1 ≤ m ∧ m ≤ 14
  · by_cases cn : 1 ≤ n ∧ n ≤ 14
    · exact verseName_table_inj m n cm.1 cm.2 cn.1 cn.2 h
    · exfalso
      have h1 := verseName_table_last m cm.1 cm.2
      have h2 := verseName_fallback_last n hn cn
      rw [h, h2] at h1
      exact absurd h1 (by decide)
  · by_cases cn : 1 ≤ n ∧ n ≤ 14
    · exfalso
      have h1 := verseName_table_last n cn.1 cn.2
      have h2 := verseName_fallback_last m hm cm
      rw [← h, h2] at h1
      exact absurd h1 (by decide)
    · rw [verseName_fallback m hm cm, verseName_fallback n hn cn] at h
      have hd := congrArg String.data h
      rw [String.data_append, String.data_append] at hd
      exact numberToString_inj m n hm hn (String.ext (List.append_cancel_right hd))

set_option maxRecDepth 100000 in
/-- C19 at 12 and at 2^63, and at the pairs 11, 15; 15, -15; 2^63, 2^63 + 2048:
equal names only for equal numbers. -/
theorem verseName_injective_witness :
    (isNumber 12 ∧ verseName 12 = verseName 12 ∧ (12 : Int) = 12)
      ∧ (isNumber 9223372036854775808 ∧ isNumber 9223372036854777856
          ∧ verseName 9223372036854775808 ≠ verseName 9223372036854777856)
      ∧ verseName 11 ≠ verseName 15 ∧ verseName 15 ≠ verseName (-15) :=
  ⟨⟨by decide, rfl, verseName_injective 12 12 (by decide) (by decide) rfl⟩,
    ⟨by decide, by decide, fun h =>
      absurd (verseName_injective 9223372036854775808 9223372036854777856 (by decide)
        (by decide) h) (by decide)⟩,
    fun h => absurd (verseName_injective 11 15 (by decide) (by decide) h) (by decide),
    fun h => absurd (verseName_injective 15 (-15) (by decide) (by decide) h) (by decide)⟩

end Syllables

namespace EditorHistory

open Syllables

/-! ## The cursor stays inside a bounded stack -/

theorem slice0_length (stack : List JSString) (index : Int) (h0 : 0 ≤ index)
    (h1 : index < (stack.length : Int)) :
    ((slice0 stack (index + 1)).length : Int) = index + 1 := by
  unfold slice0
  rw [if_neg (by omega), List.length_take]
  omega

theorem commit_inv (text : JSString) (s : State) (h : Inv s) : Inv (commit text s) := by
  obtain ⟨h0, h1, h2⟩ := h
  have hlen := slice0_length s.stack s.index h0 h1
  unfold commit Inv
  simp only
  by_cases hbig : (slice0 s.stack (s.index + 1) ++ [text]).length > 100
  · rw [if_pos hbig]
    simp only [List.length_tail, List.length_append, List.length_singleton] at hbig ⊢
    omega
  · rw [if_neg hbig]
    simp only [List.length_append, List.length_singleton] at hbig ⊢
    omega

theorem readStack_stored (stack : List JSString) (k : Int) (h0 : 0 ≤ k)
    (h1 : k < (stack.length : Int)) : ∃ t ∈ stack, readStack stack k = Result.text t := by
  have hk : k.toNat < stack.length := by omega
  refine ⟨stack[k.toNat], List.getElem_mem hk, ?_⟩
  unfold readStack
  rw [if_neg (by omega), List.getElem?_eq_getElem hk]

theorem undo_inv (s : State) (h : Inv s) : Inv (undo s).1 ∧ NullOrStored (undo s).1 (undo s).2 := by
  obtain ⟨h0, h1, h2⟩ := h
  unfold undo
  by_cases hpos : s.index > 0
  · rw [if_pos hpos]
    refine ⟨⟨?_, ?_, h2⟩, Or.inr ?_⟩
    · show 0 ≤ s.index - 1
      omega
    · show s.index - 1 < (s.stack.length : Int)
      omega
    · exact readStack_stored s.stack (s.index - 1) (by omega) (by omega)
  · rw [if_neg hpos]
    exact ⟨⟨h0, h1, h2⟩, Or.inl rfl⟩

theorem redo_inv (s : State) (h : Inv s) : Inv (redo s).1 ∧ NullOrStored (redo s).1 (redo s).2 := by
  obtain ⟨h0, h1, h2⟩ := h
  unfold redo
  by_cases hlt : s.index < (s.stack.length : Int) - 1
  · rw [if_pos hlt]
    refine ⟨⟨?_, ?_, h2⟩, Or.inr ?_⟩
    · show 0 ≤ s.index + 1
      omega
    · show s.index + 1 < (s.stack.length : Int)
      omega
    · exact readStack_stored s.stack (s.index + 1) (by omega) (by omega)
  · rw [if_neg hlt]
    exact ⟨⟨h0, h1, h2⟩, Or.inl rfl⟩

theorem step_inv (s : State) (st : Step) (h : Inv s) : Inv (step s st) := by
  cases st with
  | commit text => exact commit_inv text s h
  | undo => exact (undo_inv s h).1
  | redo => exact (redo_inv s h).1

theorem run_inv (steps : List Step) : ∀ s : State, Inv s → Inv (run s steps) := by
  induction steps with
  | nil =>
    intro s h
    exact h
  | cons st rest ih =>
    intro s h
    exact ih (step s st) (step_inv s st h)

theorem reset_inv (text : JSString) (s : State) : Inv (reset text s) := by
  unfold reset Inv
  simp

theorem commit_full (text : JSString) (s : State) (hlen : s.stack.length = 100)
    (hidx : s.index = 99) :
    (commit text s).stack = s.stack.tail ++ [text] ∧ (commit text s).index = 99 := by
  have htake : slice0 s.stack (s.index + 1) = s.stack := by
    unfold slice0
    rw [if_neg (by omega), List.take_of_length_le (by omega)]
  have hne : s.stack ≠ [] := by
    intro h
    rw [h] at hlen
    exact absurd hlen (by decide)
  unfold commit
  simp only [htake]
  have hbig : (s.stack ++ [text]).length > 100 := by
    rw [List.length_append, List.length_singleton]
    omega
  rw [if_pos hbig, List.tail_append_of_ne_nil hne]
  refine ⟨rfl, ?_⟩
  simp only [List.length_append, List.length_tail, List.length_singleton]
  omega

/-- C20: the cursor of `EditorHistory` stays inside a bounded stack.  After
`reset(t)` followed by any sequence of commit, undo and redo steps,
`0 ≤ index < stack.length ≤ 100`; in such a state `undo` and `redo` return
`null` or a text stored in the stack.  On a full stack with the cursor on the
last entry a commit drops the oldest entry and keeps 100 of them. -/
theorem history_cursor_in_bounds :
    (∀ (t : JSString) (s0 : State) (steps : List Step),
        Inv (run (reset t s0) steps)
          ∧ NullOrStored (undo (run (reset t s0) steps)).1 (undo (run (reset t s0) steps)).2
          ∧ NullOrStored (redo (run (reset t s0) steps)).1 (redo (run (reset t s0) steps)).2)
      ∧ (∀ (text : JSString) (s : State), s.stack.length = 100 → s.index = 99 →
          (commit text s).stack = s.stack.tail ++ [text] ∧ (commit text s).index = 99)
      ∧ run (reset [0x61] initial)
          [Step.commit [0x62], Step.commit [0x63], Step.undo, Step.undo, Step.undo, Step.redo]
          = ⟨[[0x61], [0x62], [0x63]], 1⟩ := by
  refine ⟨?_, commit_full, by decide⟩
  intro t s0 steps
  have hinv := run_inv steps (reset t s0) (reset_inv t s0)
  exact ⟨hinv, (undo_inv _ hinv).2, (redo_inv _ hinv).2⟩

/-! ## Undo and redo undo each other -/

/-- After an `undo` that moved the cursor, `redo` puts the state back and
returns the entry the cursor was on. -/
theorem redo_undo_state (s : State) (h : Inv s) (hu : (undo s).2 ≠ Result.null) :
    redo (undo s).1 = (s, readStack s.stack s.index) := by
  obtain ⟨_, h1, _⟩ := h
  unfold undo at hu ⊢
  by_cases hpos : s.index > 0
  · simp only [if_pos hpos]
    unfold redo
    have hlt : s.index - 1 < (s.stack.length : Int) - 1 := by omega
    simp only [if_pos hlt, Int.sub_add_cancel]
  · rw [if_neg hpos] at hu
    exact absurd rfl hu

/-- After a `redo` that moved the cursor, `undo` puts the state back and
returns the entry the cursor was on. -/
theorem undo_redo_state (s : State) (h : Inv s) (hr : (redo s).2 ≠ Result.null) :
    undo (redo s).1 = (s, readStack s.stack s.index) := by
  obtain ⟨h0, _, _⟩ := h
  unfold redo at hr ⊢
  by_cases hlt : s.index < (s.stack.length : Int) - 1
  · simp only [if_pos hlt]
    unfold undo
    have hpos : s.index + 1 > 0 := by omega
    simp only [if_pos hpos, Int.add_sub_cancel]
  · rw [if_neg hlt] at hr
    exact absurd rfl hr

/-- C21: undo/redo round trip of `EditorHistory`.  In any state reached from
`reset` by commit, undo and redo steps: if `undo()` returns a text (not
`null`), the `redo()` that follows returns the entry that was current before
the undo, a text of the stack, and restores the same index and stack; and if
`redo()` returns a text, the `undo()` that follows restores the state from
before the redo and returns the entry that was current then. -/
theorem undo_redo_round_trip (t : JSString) (s0 : State) (steps : List Step) :
    ((undo (run (reset t s0) steps)).2 ≠ Result.null →
        (redo (undo (run (reset t s0) steps)).1).1 = run (reset t s0) steps
          ∧ ∃ cur ∈ (run (reset t s0) steps).stack,
              readStack (run (reset t s0) steps).stack (run (reset t s0) steps).index
                  = Result.text cur
                ∧ (redo (undo (run (reset t s0) steps)).1).2 = Result.text cur)
      ∧ ((redo (run (reset t s0) steps)).2 ≠ Result.null →
        (undo (redo (run (reset t s0) steps)).1).1 = run (reset t s0) steps
          ∧ ∃ cur ∈ (run (reset t s0) steps).stack,
              readStack (run (reset t s0) steps).stack (run (reset t s0) steps).index
                  = Result.text cur
                ∧ (undo (redo (run (reset t s0) steps)).1).2 = Result.text cur) := by
  have hinv := run_inv steps (reset t s0) (reset_inv t s0)
  obtain ⟨cur, hmem, hcur⟩ :=
    readStack_stored (run (reset t s0) steps).stack (run (reset t s0) steps).index
      hinv.1 hinv.2.1
  constructor
  · intro hu
    have h := redo_undo_state _ hinv hu
    rw [h]
    exact ⟨rfl, cur, hmem, hcur, hcur⟩
  · intro hr
    have h := undo_redo_state _ hinv hr
    rw [h]
    exact ⟨rfl, cur, hmem, hcur, hcur⟩

/-- C21 after `reset("a")` and the commits of "b" and "c": `undo` returns "b"
and the `redo` that follows returns "c" with the state as before; one step
back, `redo` returns "c" and the `undo` that follows returns "b" with the
state as before. -/
theorem undo_redo_round_trip_witness :
    ((undo (run (reset [0x61] initial) [Step.commit [0x62], Step.commit [0x63]])).2
          = Result.text [0x62]
        ∧ (redo (undo (run (reset [0x61] initial)
              [Step.commit [0x62], Step.commit [0x63]])).1).2 = Result.text [0x63]
        ∧ (redo (undo (run (reset [0x61] initial)
              [Step.commit [0x62], Step.commit [0x63]])).1).1
            = run (reset [0x61] initial) [Step.commit [0x62], Step.commit [0x63]])
      ∧ ((redo (run (reset [0x61] initial)
              [Step.commit [0x62], Step.commit [0x63], Step.undo])).2 = Result.text [0x63]
        ∧ (undo (redo (run (reset [0x61] initial)
              [Step.commit [0x62], Step.commit [0x63], Step.undo])).1).1
            = run (reset [0x61] initial)
                [Step.commit [0x62], Step.commit [0x63], Step.undo]) :=
  ⟨⟨by decide, by decide,
      ((undo_redo_round_trip [0x61] initial [Step.commit [0x62], Step.commit [0x63]]).1
        (by decide)).1⟩,
    ⟨by decide,
      ((undo_redo_round_trip [0x61] initial
        [Step.commit [0x62], Step.commit [0x63], Step.undo]).2 (by decide)).1⟩⟩

end EditorHistory
